import Mathlib

/-!
Verification of the incremental recomputation engine of
`HiPart/inteactive_visualization.py`: the functions
`recalculate_after_spchange` (Pruner) and `partial_predict` (Recompute
Loop), plus the input type check of `main`.

The tree comes from the `treelib` package as used by the source: a node
has an integer identifier, a parent link and a data dictionary with keys
`split_criterion`, `split_permition` (spelled as in the source),
`splitpoint` and the node's sample indices.  Scalar values (splitpoints,
split criteria, projected coordinates) are modelled as rationals.
Identifiers are modelled as `Int`, matching Python integers.
-/

namespace HiPart

/-- Data dictionary of one tree node, with the keys the engine reads. -/
structure NodeData where
  split_criterion : Option ℚ
  split_permition : Bool
  splitpoint : Option ℚ
  samples : List Int
deriving DecidableEq, Repr

/-- A `treelib` node: identifier, parent pointer, data dictionary. -/
structure TNode where
  identifier : Int
  parent : Option Int
  data : NodeData
deriving DecidableEq, Repr

/-- A `treelib` tree: its nodes in insertion (creation) order, as the
`tree.nodes` dict of treelib stores them. -/
structure Tree where
  nodes : List TNode
deriving DecidableEq, Repr

/-- Python / treelib exceptions the translated code can surface. -/
inductive PyErr where
  | indexError
  | attributeError
  | nodeAbsentError
deriving DecidableEq, Repr

/-- treelib `tree.get_node(nid)`: the node with that identifier, or `None`. -/
def Tree.get_node (t : Tree) (nid : Int) : Option TNode :=
  t.nodes.find? (fun n => n.identifier == nid)

/-- Identifiers of the children of `nid`, in creation order (derived from
the parent pointers, as treelib's successor lists are kept in sync). -/
def Tree.children_ids (t : Tree) (nid : Int) : List Int :=
  (t.nodes.filter (fun n => n.parent == some nid)).map TNode.identifier

/-- treelib `node.is_leaf()`: a node with no children. -/
def Tree.is_leaf (t : Tree) (nid : Int) : Bool :=
  (t.children_ids nid).isEmpty

/-- treelib `tree.leaves()`: all current leaves, in insertion order. -/
def Tree.leaves (t : Tree) : List TNode :=
  t.nodes.filter (fun n => t.is_leaf n.identifier)

/-- Identifiers of all nodes, in insertion order (`list(tree.nodes.keys())`). -/
def Tree.nodeIds (t : Tree) : List Int :=
  t.nodes.map TNode.identifier

/-- The identifiers removed by treelib `tree.remove_node(nid)`: the node and
all its descendants.  Computed by a scan in insertion order, which collects
the full descendant set because treelib trees list a parent before its
children (nodes are appended at creation, below an existing parent). -/
def Tree.removedIds (t : Tree) (nid : Int) : List Int :=
  t.nodes.foldl
    (fun acc n =>
      if n.identifier == nid || (match n.parent with
        | some p => acc.contains p
        | none => false) then acc ++ [n.identifier] else acc)
    []

/-- treelib `tree.remove_node(nid)`: removes the node and its whole
subtree, detaching it from the parent's child list. -/
def Tree.remove_node (t : Tree) (nid : Int) : Tree :=
  { nodes := t.nodes.filter (fun n => !(t.removedIds nid).contains n.identifier) }

/-- Overwrite the data dictionary of the node with identifier `nid`
(in-place mutation of the node object in Python). -/
def Tree.setData (t : Tree) (nid : Int) (d : NodeData) : Tree :=
  { nodes := t.nodes.map (fun n => if n.identifier == nid then { n with data := d } else n) }

/-- treelib `tree.parent(nid).identifier` as the source uses it: raises
`NodeIDAbsentError` when `nid` is not in the tree, and an
`AttributeError` when `tree.parent(nid)` returns `None` (root, or a
dangling parent pointer) and `.identifier` is taken on it. -/
def Tree.parentIdent (t : Tree) (nid : Int) : Except PyErr Int :=
  match t.get_node nid with
  | none => .error .nodeAbsentError
  | some n =>
    match n.parent with
    | none => .error .attributeError
    | some p =>
      match t.get_node p with
      | none => .error .attributeError
      | some pn => .ok pn.identifier

/-- CPython list indexing `l[i]`: negative indices count from the end;
`IndexError` outside `[-len(l), len(l))`. -/
def pyIndex (l : List Int) (i : Int) : Except PyErr Int :=
  let j := if i < 0 then i + (l.length : Int) else i
  if 0 ≤ j ∧ j < (l.length : Int) then .ok (l.getD j.toNat 0) else .error .indexError

/-- Lines 981-990 of the source: `internal_nodes` is computed as the ids in
`range(number_of_nodes)` that are not leaf identifiers, replaced by `[0]`
when empty.  (The source sorts the leaves by identifier first, which does
not affect the membership test used here.) -/
def internal_nodes_of (t : Tree) : List Int :=
  let number_of_nodes := t.nodes.length
  let leaf_node_list := t.leaves.map TNode.identifier
  let ins := ((List.range number_of_nodes).map (fun j : Nat => (j : Int))).filter
    (fun i => !(leaf_node_list.contains i))
  if ins.isEmpty then [0] else ins

/-- One iteration of the pruning loop (source lines 995-1005), for the key
`k = node_keys[i]`: evaluate `internal_nodes[split]`, and remove `k` when
it was created after the edited node and is not preserved by the sibling
rule.  Returns the tree after this step and the first raised exception. -/
def pruneStep (internal : List Int) (split : Int) (t : Tree) (k : Int) :
    Tree × Option PyErr :=
  match pyIndex internal split with
  | .error e => (t, some e)
  | .ok eid =>
    if k > eid then
      match t.get_node k with
      | none => (t, none)
      | some _ =>
        match t.get_node eid with
        | none => (t, some .attributeError)
        | some en =>
          if en.parent = none then
            (t.remove_node k, none)
          else
            match t.parentIdent eid, t.parentIdent k with
            | .ok pe, .ok pk =>
              if pe ≠ pk then (t.remove_node k, none) else (t, none)
            | .error e, _ => (t, some e)
            | _, .error e => (t, some e)
    else (t, none)

/-- The pruning scan over the given key sequence, stopping (with the
mutated tree) at the first exception, as Python's raised exception leaves
the in-place mutations behind. -/
def pruneLoop (internal : List Int) (split : Int) : Tree → List Int → Tree × Option PyErr
  | t, [] => (t, none)
  | t, k :: ks =>
    match pruneStep internal split t k with
    | (t', none) => pruneLoop internal split t' ks
    | (t', some e) => (t', some e)

/-- Source lines 994-1005: the key snapshot is `list(tree.nodes.keys())`
and the loop runs over indices `len-1, ..., 1`, i.e. over
`(node_keys[1:])` reversed. -/
def prunePhase (t : Tree) (split : Int) : Tree × Option PyErr :=
  pruneLoop (internal_nodes_of t) split t ((t.nodeIds.drop 1).reverse)

/-- Source lines 1009-1013: every remaining leaf whose `split_criterion`
is not `None` gets `split_permition = True`. -/
def permission_reset (t : Tree) : Tree :=
  { nodes := t.nodes.map (fun n =>
      if t.is_leaf n.identifier ∧ n.data.split_criterion ≠ none then
        { n with data := { n.data with split_permition := true } }
      else n) }

/-- The clustering object fields this core reads and writes (spec section
3): the tree, the `node_ids` allocation counter, the `cluster_color`
counter and the `max_clusters_number` budget. -/
structure HiPartObject where
  tree : Tree
  node_ids : Int
  cluster_color : Int
  max_clusters_number : Nat
deriving DecidableEq, Repr

/-- Modelled from the spec: the per-variant quantities the external
Splitter computes from raw sample data (sections 4.2-4.3), which are not
part of this source file.  `proj` is the fixed 1-D projection of each
sample, `spOf` the splitpoint the Splitter would choose for a sample set
(`none` = degenerate), and `critOf` the split criterion it assigns to a
sample set. -/
structure SplitParams where
  proj : Int → ℚ
  spOf : List Int → Option ℚ
  critOf : List Int → Option ℚ

/-- Modelled from the spec: the external collaborators of the core, the
Split Selector `select_kid(leaves)` (section 4.2, a pure policy returning
the identifier of the next leaf to split or none) and the Splitter's
parameters (section 4.3). -/
structure Alg where
  select_kid : List TNode → Option Int
  params : SplitParams

/-- Modelled from the spec: `split_function(tree, node)` (section 4.3).
It computes `node.splitpoint` and a `split_criterion` for `node` if not
already set, creates exactly two new leaf children with fresh ids
`node_ids+1`, `node_ids+2`, each owning the samples routed by comparing
their projected coordinate to `node.splitpoint`; on degenerate data (no
splitpoint available) it instead sets `split_criterion = None`. -/
def split_function (alg : Alg) (obj : HiPartObject) (nid : Int) : HiPartObject :=
  match obj.tree.get_node nid with
  | none => obj
  | some n =>
    match n.data.splitpoint.orElse (fun _ => alg.params.spOf n.data.samples) with
    | none =>
      { obj with tree := obj.tree.setData nid { n.data with split_criterion := none } }
    | some sp =>
      let leftS := n.data.samples.filter (fun s => decide (alg.params.proj s < sp))
      let rightS := n.data.samples.filter (fun s => !decide (alg.params.proj s < sp))
      let crit := n.data.split_criterion.orElse (fun _ => alg.params.critOf n.data.samples)
      let c1 : TNode :=
        ⟨obj.node_ids + 1, some nid, ⟨alg.params.critOf leftS, true, none, leftS⟩⟩
      let c2 : TNode :=
        ⟨obj.node_ids + 2, some nid, ⟨alg.params.critOf rightS, true, none, rightS⟩⟩
      { obj with
        tree := { nodes :=
          (obj.tree.setData nid
            { n.data with splitpoint := some sp, split_criterion := crit }).nodes
          ++ [c1, c2] },
        node_ids := obj.node_ids + 2 }

/-- The two child records `split_function` appends on a successful split
(same fields as in `split_function`, named for reuse in proofs). -/
def splitKids (alg : Alg) (obj : HiPartObject) (nid : Int) (n : TNode) (sp : ℚ) :
    List TNode :=
  let leftS := n.data.samples.filter (fun s => decide (alg.params.proj s < sp))
  let rightS := n.data.samples.filter (fun s => !decide (alg.params.proj s < sp))
  [⟨obj.node_ids + 1, some nid, ⟨alg.params.critOf leftS, true, none, leftS⟩⟩,
   ⟨obj.node_ids + 2, some nid, ⟨alg.params.critOf rightS, true, none, rightS⟩⟩]

/-- The updated data record `split_function` writes on the split node
(as in `split_function`, named for reuse in proofs). -/
def splitUpdated (alg : Alg) (n : TNode) (sp : ℚ) : NodeData :=
  { n.data with
    splitpoint := some sp,
    split_criterion := n.data.split_criterion.orElse
      (fun _ => alg.params.critOf n.data.samples) }

/-- The recompute loop of `partial_predict` (source lines 1049-1057):
while `select_kid` finds a node and `found_clusters` is below the budget,
split it.  The loop is driven by the remaining budget
`max_clusters_number - found_clusters`: `found_clusters` grows by exactly
one per iteration (line 1057), so the while condition
`found_clusters < max_clusters_number` holds exactly when the remaining
budget is nonzero.  Also returns the sequence of split node ids (the
loop's Splitter invocations, one per iteration). -/
def partial_loop (alg : Alg) (budget : Nat) (obj : HiPartObject) :
    HiPartObject × List Int :=
  match alg.select_kid obj.tree.leaves with
  | none => (obj, [])
  | some nid =>
    match budget with
    | 0 => (obj, [])
    | b + 1 =>
      let r := partial_loop alg b (split_function alg obj nid)
      (r.fst, nid :: r.snd)

/-- Source lines 1027-1058, `partial_predict`: resume the divisive loop
with `found_clusters` initialised to the current number of leaves (so the
remaining budget is `max_clusters_number - found_clusters`). -/
def partial_predict (alg : Alg) (obj : HiPartObject) : HiPartObject × List Int :=
  partial_loop alg (obj.max_clusters_number - obj.tree.leaves.length) obj

/-- Source lines 975-1018 of `recalculate_after_spchange`, up to but not
including the call to `partial_predict`: prune, reset permissions and the
two counters, write the new splitpoint on the edited node.  The result is
the state of the object at line 1020 (Python mutates it in place)
together with the first raised exception. -/
def recalcMid (obj : HiPartObject) (split : Int) (splitpoint_value : ℚ) :
    HiPartObject × Option PyErr :=
  let internal_nodes := internal_nodes_of obj.tree
  match prunePhase obj.tree split with
  | (t, some e) => ({ obj with tree := t }, some e)
  | (t, none) =>
    let t1 := permission_reset t
    let obj1 : HiPartObject :=
      { obj with
        tree := t1
        node_ids := (t1.nodes.length : Int) - 1
        cluster_color := (t1.leaves.length : Int) + 1 }
    match pyIndex internal_nodes split with
    | .error e => (obj1, some e)
    | .ok eid =>
      match t1.get_node eid with
      | none => (obj1, some .attributeError)
      | some n =>
        ({ obj1 with
          tree := t1.setData eid { n.data with splitpoint := some splitpoint_value } }, none)

/-- Source lines 952-1024, `recalculate_after_spchange`: prune, reset
permissions and counters, write the new splitpoint on the edited node,
then run `partial_predict`.  The result is the final state of the object
(Python mutates it in place) together with the first raised exception. -/
def recalculate_after_spchange (alg : Alg) (obj : HiPartObject) (split : Int)
    (splitpoint_value : ℚ) : HiPartObject × Option PyErr :=
  match recalcMid obj split splitpoint_value with
  | (o, some e) => (o, some e)
  | (o, none) => ((partial_predict alg o).fst, none)

/-- Step 1 of the Pruner as the spec states it (section 4.4): the ids of
all current non-leaf nodes sorted ascending, `[0]` when there are none.
This definition follows the spec's words; the claims compare it with the
source's `internal_nodes_of`. -/
def internal_nodes_spec (t : Tree) : List Int :=
  let ins := ((t.nodeIds).insertionSort (fun a b => a ≤ b)).filter
    (fun i => !t.is_leaf i)
  if ins.isEmpty then [0] else ins

/-- The keep predicate characterising the pruning scan for a well-formed
tree: a node survives when it was created no later than the edited node
`e`, or when the edited node is not the root and the node hangs off the
edited node's direct parent `ep`. -/
def keepNode (e : Int) (ep : Option Int) (n : TNode) : Bool :=
  n.identifier ≤ e || (!(ep == none) && n.parent == ep)

/-- The pruned tree predicted for a well-formed input tree. -/
def prunedTree (t : Tree) (e : Int) (ep : Option Int) : Tree :=
  ⟨t.nodes.filter (keepNode e ep)⟩

/-- The identifier sequence `[b, b-1, ..., 1]` the pruning scan walks. -/
def countdown : Nat → List Int
  | 0 => []
  | b + 1 => ((b : Int) + 1) :: countdown b

/-- A node-record map that changes neither identifiers nor parent links
(the permission reset and the splitpoint write are such maps). -/
def IdParentMap (g : TNode → TNode) : Prop :=
  ∀ n, (g n).identifier = n.identifier ∧ (g n).parent = n.parent

/-- The tree mid-scan: identifiers above `b` have been processed (and
removed unless kept by `keepNode`), identifiers up to `b` not yet. -/
def stageTree (t : Tree) (e : Int) (ep : Option Int) (b : Int) : Tree :=
  ⟨t.nodes.filter (fun x => x.identifier ≤ b || keepNode e ep x)⟩

/-- The state `recalcMid` produces on a well-formed tree whose edited
node is `en` (proved in `recalcMid_char`): the pruned tree with
permissions re-opened, counters reset, and the new splitpoint written on
the edited node. -/
def midState (obj : HiPartObject) (e : Int) (en : TNode) (v : ℚ) : HiPartObject :=
  { obj with
    tree := (permission_reset (prunedTree obj.tree e en.parent)).setData e
      { (if (prunedTree obj.tree e en.parent).is_leaf en.identifier ∧
            en.data.split_criterion ≠ none then
          { en with data := { en.data with split_permition := true } }
        else en).data with splitpoint := some v }
    node_ids := ((permission_reset (prunedTree obj.tree e en.parent)).nodes.length : Int) - 1
    cluster_color :=
      ((permission_reset (prunedTree obj.tree e en.parent)).leaves.length : Int) + 1 }

/-- `a` is a proper ancestor of `b`: following parent links upward from
the node with identifier `b` reaches identifier `a`. -/
inductive Tree.Anc (t : Tree) : Int → Int → Prop where
  | parent {a b : Int} {n : TNode} :
      t.get_node b = some n → n.parent = some a → Tree.Anc t a b
  | step {a b c : Int} {n : TNode} :
      t.get_node b = some n → n.parent = some c → Tree.Anc t a c → Tree.Anc t a b

/-- The record a root edit leaves on the root: permission re-opened when
a split criterion is known (the pruned tree makes the root a leaf), and
the new splitpoint written. -/
def rootEdited (en : TNode) (v : ℚ) : TNode :=
  { en with data :=
    { en.data with
      split_permition :=
        (if en.data.split_criterion ≠ none then true else en.data.split_permition)
      splitpoint := some v } }

/-- Criterion value used for ranking by the modelled selector. -/
def critVal (n : TNode) : ℚ :=
  n.data.split_criterion.getD 0

/-- Modelled from the spec: a concrete deterministic Split Selector
(section 4.2): among the leaves with a known split criterion and split
permission, pick the one with the greatest criterion (first wins ties). -/
def selectMaxCrit (ls : List TNode) : Option Int :=
  (ls.filter (fun n => !(n.data.split_criterion == none) && n.data.split_permition)).foldl
    (fun best n =>
      match best with
      | none => some n
      | some b => if critVal b < critVal n then some n else some b)
    none
  |>.map TNode.identifier

/-- Spec contract of `select_kid` (section 4.2): when it returns a node,
that node is one of the given leaves, eligible for splitting. -/
def SelectSpec (sel : List TNode → Option Int) : Prop :=
  ∀ ls nid, sel ls = some nid →
    ∃ n, n ∈ ls ∧ n.identifier = nid ∧
      n.data.split_criterion ≠ none ∧ n.data.split_permition = true

/-- Tree well-formedness, as the lifecycle invariants of spec section 3
guarantee for every tree this engine receives: identifiers are exactly
`0, ..., n-1` in creation order (the root, id 0, first), every non-root
node points to an earlier parent, and children are created two at a time
with consecutive identifiers. -/
def sortedContiguous (t : Tree) : Bool :=
  t.nodeIds == (List.range t.nodes.length).map (fun j : Nat => (j : Int))

/-- Every non-root node has an earlier parent; the root (`id = 0`) has none. -/
def parentsOk (t : Tree) : Bool :=
  t.nodes.all (fun n =>
    if n.identifier == 0 then n.parent == none
    else match n.parent with
      | some p => decide (0 ≤ p ∧ p < n.identifier)
      | none => false)

/-- Children come in consecutive-identifier pairs (one split creates two). -/
def pairsOk (t : Tree) : Bool :=
  t.nodes.all (fun n =>
    match t.children_ids n.identifier with
    | [] => true
    | [a, b] => b == a + 1
    | _ => false)

/-- Full tree well-formedness. -/
def wfTree (t : Tree) : Bool :=
  sortedContiguous t && parentsOk t && pairsOk t

/-- Object well-formedness: a well-formed tree with the `node_ids`
counter in sync (spec section 3: tree size minus one). -/
def WfObject (obj : HiPartObject) : Prop :=
  wfTree obj.tree = true ∧ obj.node_ids = (obj.tree.nodes.length : Int) - 1

/-- The weaker invariant the recompute loop maintains: identifiers are
distinct and never exceed the allocation counter, so fresh children get
unused identifiers. -/
def LoopInv (obj : HiPartObject) : Prop :=
  obj.tree.nodeIds.Nodup ∧
  ∀ n ∈ obj.tree.nodes, n.identifier ≤ obj.node_ids

/-- The four clustering classes accepted by `main` (source lines 29-32),
plus any other input. -/
inductive InputKind where
  | dePDDP
  | iPDDP
  | kM_PDDP
  | PDDP
  | other
deriving DecidableEq, Repr

/-- The `isinstance` test of `main` (source lines 58-63). -/
def isSupported : InputKind → Bool
  | .dePDDP => true
  | .iPDDP => true
  | .kM_PDDP => true
  | .PDDP => true
  | .other => false

/-- Observable side effects of the prefix of `main` relevant to its type
check: temporary file creations (source lines 71-75). -/
inductive MainStep where
  | createTempFile
deriving DecidableEq, Repr

/-- Source lines 57-75 of `main`: the compatibility check runs first; if
it fails a `TypeError` is raised with no side effect, otherwise the three
temporary files are created.  Returns the effects performed and whether
the `TypeError` was raised. -/
def main_typecheck (k : InputKind) : List MainStep × Bool :=
  if isSupported k then
    ([.createTempFile, .createTempFile, .createTempFile], false)
  else
    ([], true)

/-- Shorthand node constructor for the concrete scenarios. -/
def exNode (i : Int) (p : Option Int) (crit : Option ℚ) (perm : Bool) (sp : Option ℚ)
    (ss : List Int) : TNode :=
  ⟨i, p, ⟨crit, perm, sp, ss⟩⟩

/-- A concrete instance of the external collaborators: projection 0,
always-available splitpoint 0, constant criterion 1, greatest-criterion
selector. -/
def exAlg : Alg :=
  ⟨selectMaxCrit, ⟨fun _ => 0, fun _ => some 0, fun _ => some 1⟩⟩

/-- The spec's scenario tree: root `0` split into leaves `1`, `2`. -/
def exTree5 : Tree :=
  ⟨[exNode 0 none (some 1) true (some 10) [1, 2],
    exNode 1 (some 0) (some 5) true none [1],
    exNode 2 (some 0) (some 9) true none [2]]⟩

/-- The spec's scenario object: `max_clusters_number = 2`. -/
def exObj5 : HiPartObject := ⟨exTree5, 2, 3, 2⟩

/-- A one-node tree (a root that never split) with a recognisable
`cluster_color`. -/
def exObj1 : HiPartObject :=
  ⟨⟨[exNode 0 none (some 1) false (some 10) [1, 2]]⟩, 0, 99, 2⟩

/-- A tree whose identifiers are not the contiguous range `0..n-1`:
root `0` with leaf children `1` and `3`. -/
def exTree3 : Tree :=
  ⟨[exNode 0 none (some 1) true (some 10) [1, 2],
    exNode 1 (some 0) (some 5) true none [1],
    exNode 3 (some 0) (some 9) true none [2]]⟩

/-- A root whose `split_permission` is off, with two leaf children and a
budget that is already reached (`max_clusters_number = 1`). -/
def exObj7 : HiPartObject :=
  ⟨⟨[exNode 0 none (some 1) false (some 10) [1, 2],
     exNode 1 (some 0) (some 5) true none [1],
     exNode 2 (some 0) (some 9) true none [2]]⟩, 2, 3, 1⟩

/-- Two-level tree `0 -> (1, 2)`, `1 -> (3, 4)`, used for the pruning and
idempotence scenarios. -/
def exTree2 : Tree :=
  ⟨[exNode 0 none (some 1) true (some 10) [1, 2, 3, 4, 5, 6],
    exNode 1 (some 0) (some 5) true (some 20) [1, 2, 3, 4],
    exNode 2 (some 0) (some 9) true none [5, 6],
    exNode 3 (some 1) (some 2) true none [1, 2],
    exNode 4 (some 1) (some 3) true none [3, 4]]⟩

/-- Collaborators for the idempotence scenario: identity-like projection
and a constant splitpoint, so every leaf is splittable. -/
def exAlg8 : Alg :=
  ⟨selectMaxCrit, ⟨fun s => (s : ℚ), fun _ => some 4, fun _ => some 1⟩⟩

/-- The idempotence scenario object: `exTree2` with a budget of 3. -/
def exObj8 : HiPartObject := ⟨exTree2, 4, 5, 3⟩

/-! Theorems. -/

/-! Basic facts about tree lookups. -/

theorem get_node_eq_some {t : Tree} {i : Int} {n : TNode} (h : t.get_node i = some n) :
    n ∈ t.nodes ∧ n.identifier = i := by
  unfold Tree.get_node at h
  refine ⟨List.mem_of_find?_eq_some h, ?_⟩
  have := List.find?_some h
  simpa using this

theorem get_node_of_mem {t : Tree} (hd : t.nodeIds.Nodup) {n : TNode}
    (hn : n ∈ t.nodes) : t.get_node n.identifier = some n := by
  unfold Tree.get_node
  cases hf : t.nodes.find? (fun m => m.identifier == n.identifier) with
  | none =>
    rw [List.find?_eq_none] at hf
    exact absurd (by simp) (hf n hn)
  | some m =>
    have hm : m ∈ t.nodes := List.mem_of_find?_eq_some hf
    have hmi : m.identifier = n.identifier := by simpa using List.find?_some hf
    have : m = n := by
      unfold Tree.nodeIds at hd
      exact List.inj_on_of_nodup_map hd hm hn hmi
    rw [this]

theorem mem_nodeIds_iff {t : Tree} {i : Int} :
    i ∈ t.nodeIds ↔ ∃ n, n ∈ t.nodes ∧ n.identifier = i := by
  simp [Tree.nodeIds, List.mem_map, eq_comm]

theorem mem_children_ids {t : Tree} {i j : Int} :
    j ∈ t.children_ids i ↔ ∃ n, n ∈ t.nodes ∧ n.parent = some i ∧ n.identifier = j := by
  simp [Tree.children_ids, List.mem_filter, List.mem_map]
  constructor
  · rintro ⟨n, ⟨hn, hp⟩, rfl⟩
    exact ⟨n, hn, hp, rfl⟩
  · rintro ⟨n, hn, hp, rfl⟩
    exact ⟨n, ⟨hn, hp⟩, rfl⟩

/-! Consequences of `sortedContiguous`. -/

theorem sc_nodeIds {t : Tree} (h : sortedContiguous t = true) :
    t.nodeIds = (List.range t.nodes.length).map (fun j : Nat => (j : Int)) := by
  unfold sortedContiguous at h
  exact eq_of_beq h

theorem sc_nodup {t : Tree} (h : sortedContiguous t = true) : t.nodeIds.Nodup := by
  rw [sc_nodeIds h]
  have hinj : Function.Injective (fun j : Nat => (j : Int)) := fun a b hab => by
    simpa using hab
  exact List.Nodup.map hinj (List.nodup_range _)

theorem sc_mem_nodeIds {t : Tree} (h : sortedContiguous t = true) {i : Int} :
    i ∈ t.nodeIds ↔ 0 ≤ i ∧ i < (t.nodes.length : Int) := by
  rw [sc_nodeIds h]
  simp only [List.mem_map, List.mem_range]
  constructor
  · rintro ⟨a, ha, rfl⟩
    exact ⟨Int.natCast_nonneg a, by exact_mod_cast ha⟩
  · rintro ⟨h0, hn⟩
    exact ⟨i.toNat, by omega, by omega⟩

theorem sc_exists_node {t : Tree} (h : sortedContiguous t = true) {i : Int}
    (h0 : 0 ≤ i) (hn : i < (t.nodes.length : Int)) :
    ∃ n, n ∈ t.nodes ∧ n.identifier = i :=
  mem_nodeIds_iff.mp ((sc_mem_nodeIds h).mpr ⟨h0, hn⟩)

theorem sc_get_node_isSome {t : Tree} (h : sortedContiguous t = true) {i : Int}
    (h0 : 0 ≤ i) (hn : i < (t.nodes.length : Int)) :
    ∃ n, t.get_node i = some n ∧ n ∈ t.nodes ∧ n.identifier = i := by
  obtain ⟨n, hmem, hid⟩ := sc_exists_node h h0 hn
  exact ⟨n, by rw [← hid]; exact get_node_of_mem (sc_nodup h) hmem, hmem, hid⟩

/-! Consequences of `parentsOk` and `pairsOk`. -/

theorem parentsOk_root {t : Tree} (h : parentsOk t = true) {n : TNode}
    (hn : n ∈ t.nodes) (h0 : n.identifier = 0) : n.parent = none := by
  unfold parentsOk at h
  have := List.all_eq_true.mp h n hn
  rw [if_pos (by simpa using h0)] at this
  simpa using this

theorem parentsOk_nonroot {t : Tree} (h : parentsOk t = true) {n : TNode}
    (hn : n ∈ t.nodes) (h0 : n.identifier ≠ 0) :
    ∃ p, n.parent = some p ∧ 0 ≤ p ∧ p < n.identifier := by
  unfold parentsOk at h
  have := List.all_eq_true.mp h n hn
  rw [if_neg (by simpa using h0)] at this
  cases hp : n.parent with
  | none => rw [hp] at this; simp at this
  | some p =>
    rw [hp] at this
    exact ⟨p, rfl, of_decide_eq_true this⟩

theorem parent_lt {t : Tree} (h : parentsOk t = true) {n : TNode} (hn : n ∈ t.nodes) {p : Int}
    (hp : n.parent = some p) : 0 ≤ p ∧ p < n.identifier := by
  by_cases h0 : n.identifier = 0
  · rw [parentsOk_root h hn h0] at hp
    exact absurd hp (by simp)
  · obtain ⟨q, hq, hq2⟩ := parentsOk_nonroot h hn h0
    rw [hq] at hp
    cases hp
    exact hq2

theorem pairsOk_cases {t : Tree} (h : pairsOk t = true) {n : TNode}
    (hn : n ∈ t.nodes) :
    t.children_ids n.identifier = [] ∨
    ∃ a, t.children_ids n.identifier = [a, a + 1] := by
  unfold pairsOk at h
  have := List.all_eq_true.mp h n hn
  cases hc : t.children_ids n.identifier with
  | nil => exact Or.inl rfl
  | cons a l =>
    cases l with
    | nil => rw [hc] at this; simp at this
    | cons b l2 =>
      cases l2 with
      | nil =>
        rw [hc] at this
        have hb : b = a + 1 := by simpa using this
        subst hb
        exact Or.inr ⟨a, rfl⟩
      | cons c l3 => rw [hc] at this; simp at this

/-! The `pyIndex` characterisation. -/

theorem pyIndex_cases (l : List Int) (i : Int) :
    (¬(-(l.length : Int) ≤ i ∧ i < (l.length : Int)) ∧ pyIndex l i = .error .indexError) ∨
    ((-(l.length : Int) ≤ i ∧ i < (l.length : Int)) ∧ ∃ x, pyIndex l i = .ok x) := by
  unfold pyIndex
  by_cases hi : i < 0
  · simp only [if_pos hi]
    split
    · rename_i hc
      exact Or.inr ⟨⟨by omega, by omega⟩, _, rfl⟩
    · rename_i hc
      exact Or.inl ⟨fun hin => hc ⟨by omega, by omega⟩, rfl⟩
  · simp only [if_neg hi]
    split
    · rename_i hc
      exact Or.inr ⟨⟨by omega, by omega⟩, _, rfl⟩
    · rename_i hc
      exact Or.inl ⟨fun hin => hc ⟨by omega, by omega⟩, rfl⟩

theorem pyIndex_error_iff {l : List Int} {i : Int} {e : PyErr} :
    pyIndex l i = .error e ↔
      (e = .indexError ∧ ¬(-(l.length : Int) ≤ i ∧ i < (l.length : Int))) := by
  rcases pyIndex_cases l i with ⟨hout, herr⟩ | ⟨hin, x, hok⟩
  · rw [herr]
    constructor
    · intro h
      cases h
      exact ⟨rfl, hout⟩
    · rintro ⟨rfl, _⟩
      rfl
  · rw [hok]
    constructor
    · intro h
      exact absurd h (by simp)
    · rintro ⟨rfl, h2⟩
      exact absurd hin h2

theorem pyIndex_ok_in_range {l : List Int} {i : Int} {x : Int}
    (h : pyIndex l i = .ok x) :
    -(l.length : Int) ≤ i ∧ i < (l.length : Int) := by
  rcases pyIndex_cases l i with ⟨hout, herr⟩ | ⟨hin, y, hok⟩
  · rw [herr] at h
    exact absurd h (by simp)
  · exact hin

/-! Congruence for `find?`. -/

theorem find?_congr_mem {α : Type} {p q : α → Bool} :
    ∀ {l : List α}, (∀ x ∈ l, p x = q x) → l.find? p = l.find? q := by
  intro l
  induction l with
  | nil => intro _; rfl
  | cons a l ih =>
    intro h
    have ha := h a (by simp)
    rw [List.find?_cons, List.find?_cons, ha]
    cases q a
    · exact ih (fun x hx => h x (by simp [hx]))
    · rfl

/-! Trees built by identifier- and parent-preserving maps. -/

theorem idparent_setData (nid : Int) (d : NodeData) :
    IdParentMap (fun n => if n.identifier == nid then { n with data := d } else n) := by
  intro n
  by_cases h : n.identifier = nid <;> simp [h]

theorem idparent_permission (t : Tree) :
    IdParentMap (fun n =>
      if t.is_leaf n.identifier ∧ n.data.split_criterion ≠ none then
        { n with data := { n.data with split_permition := true } } else n) := by
  intro n
  by_cases h : t.is_leaf n.identifier ∧ n.data.split_criterion ≠ none <;> simp [h]

theorem map_children_ids {g : TNode → TNode} (hg : IdParentMap g) (t : Tree) (i : Int) :
    (Tree.mk (t.nodes.map g)).children_ids i = t.children_ids i := by
  unfold Tree.children_ids
  rw [List.filter_map, List.map_map]
  rw [List.filter_congr (q := fun n => n.parent == some i)
    (fun x _ => by simp [Function.comp, (hg x).2])]
  exact List.map_congr_left (fun x _ => (hg x).1)

theorem map_nodeIds {g : TNode → TNode} (hg : IdParentMap g) (t : Tree) :
    (Tree.mk (t.nodes.map g)).nodeIds = t.nodeIds := by
  unfold Tree.nodeIds
  rw [List.map_map]
  exact List.map_congr_left (fun x _ => (hg x).1)

theorem map_is_leaf {g : TNode → TNode} (hg : IdParentMap g) (t : Tree) (i : Int) :
    (Tree.mk (t.nodes.map g)).is_leaf i = t.is_leaf i := by
  unfold Tree.is_leaf
  rw [map_children_ids hg]

theorem map_get_node {g : TNode → TNode} (hg : IdParentMap g) (t : Tree) (i : Int) :
    (Tree.mk (t.nodes.map g)).get_node i = (t.get_node i).map g := by
  unfold Tree.get_node
  rw [List.find?_map]
  rw [find?_congr_mem (q := fun n => n.identifier == i)
    (fun x _ => by simp [Function.comp, (hg x).1])]

theorem map_leaves {g : TNode → TNode} (hg : IdParentMap g) (t : Tree) :
    (Tree.mk (t.nodes.map g)).leaves = t.leaves.map g := by
  unfold Tree.leaves
  rw [List.filter_map]
  congr 1
  apply List.filter_congr
  intro x _
  simp only [Function.comp]
  rw [(hg x).1, map_is_leaf hg]

/-! Filtered trees. -/

theorem filtered_nodup {t : Tree} (hd : t.nodeIds.Nodup) (f : TNode → Bool) :
    (Tree.mk (t.nodes.filter f)).nodeIds.Nodup := by
  unfold Tree.nodeIds at hd ⊢
  exact List.Nodup.sublist (List.Sublist.map _ (List.filter_sublist _)) hd

theorem filtered_get_node {t : Tree} (hd : t.nodeIds.Nodup) {f : TNode → Bool}
    {n : TNode} (hn : n ∈ t.nodes) (hf : f n = true) :
    (Tree.mk (t.nodes.filter f)).get_node n.identifier = some n :=
  get_node_of_mem (filtered_nodup hd f) (List.mem_filter.mpr ⟨hn, hf⟩)

/-! Removal of a node none of whose children are present: exactly that
node disappears. -/

theorem removedIds_no_children (t : Tree) (k : Int)
    (h : ∀ x ∈ t.nodes, x.parent ≠ some k) :
    t.removedIds k = (t.nodes.filter (fun n => n.identifier == k)).map TNode.identifier := by
  unfold Tree.removedIds
  suffices haux : ∀ (l : List TNode) (acc : List Int),
      (∀ x ∈ l, x.parent ≠ some k) → (∀ a ∈ acc, a = k) →
      l.foldl (fun acc n => if n.identifier == k || (match n.parent with
          | some p => acc.contains p
          | none => false) then acc ++ [n.identifier] else acc) acc
        = acc ++ (l.filter (fun n => n.identifier == k)).map TNode.identifier by
    simpa using haux t.nodes [] h (by simp)
  intro l
  induction l with
  | nil =>
    intro acc _ _
    simp
  | cons n l ih =>
    intro acc hl hacc
    simp only [List.foldl_cons]
    by_cases hid : n.identifier = k
    · rw [if_pos (by simp [hid])]
      rw [ih (acc ++ [n.identifier]) (fun x hx => hl x (by simp [hx]))
        (fun a ha => by
          rcases List.mem_append.mp ha with h1 | h2
          · exact hacc a h1
          · simpa [hid] using h2)]
      rw [List.filter_cons_of_pos (by simp [hid])]
      simp
    · have hcond : (n.identifier == k || (match n.parent with
          | some p => acc.contains p
          | none => false)) = false := by
        cases hp : n.parent with
        | none => simp [hid]
        | some p =>
          simp only [Bool.or_eq_false_iff]
          refine ⟨by simp [hid], ?_⟩
          by_cases hpin : acc.contains p = true
          · have : p = k := hacc p (List.elem_iff.mp hpin)
            exact absurd (hp.trans (by rw [this])) (hl n (by simp))
          · simpa using hpin
      rw [if_neg (fun hc => Bool.false_ne_true (hcond ▸ hc))]
      rw [ih acc (fun x hx => hl x (by simp [hx])) hacc]
      rw [List.filter_cons_of_neg (by simp [hid])]

theorem remove_node_no_children (t : Tree) (k : Int)
    (h : ∀ x ∈ t.nodes, x.parent ≠ some k) :
    t.remove_node k = Tree.mk (t.nodes.filter (fun n => !(n.identifier == k))) := by
  unfold Tree.remove_node
  congr 1
  apply List.filter_congr
  intro x hx
  rw [removedIds_no_children t k h]
  congr 1
  by_cases hxk : x.identifier = k
  · have hmem : x.identifier ∈ (t.nodes.filter
        (fun n => n.identifier == k)).map TNode.identifier :=
      List.mem_map.mpr ⟨x, List.mem_filter.mpr ⟨hx, by simp [hxk]⟩, rfl⟩
    have h1 : ((t.nodes.filter (fun n => n.identifier == k)).map
        TNode.identifier).contains x.identifier = true := by
      simpa using hmem
    rw [h1, hxk]
    simp
  · have hnmem : ¬ x.identifier ∈ (t.nodes.filter
        (fun n => n.identifier == k)).map TNode.identifier := by
      intro hmem
      rcases List.mem_map.mp hmem with ⟨y, hy, hyx⟩
      have : y.identifier = k := by simpa using (List.mem_filter.mp hy).2
      exact hxk (hyx ▸ this)
    have h0 : ((t.nodes.filter (fun n => n.identifier == k)).map
        TNode.identifier).contains x.identifier = false := by
      simpa using hnmem
    rw [h0]
    simp [hxk]

/-! Bounds on the identifiers of a contiguous tree. -/

theorem sc_id_bounds {t : Tree} (h : sortedContiguous t = true) {x : TNode}
    (hx : x ∈ t.nodes) : 0 ≤ x.identifier ∧ x.identifier < (t.nodes.length : Int) :=
  (sc_mem_nodeIds h).mp (mem_nodeIds_iff.mpr ⟨x, hx, rfl⟩)

theorem sc_unique {t : Tree} (h : sortedContiguous t = true) {x y : TNode}
    (hx : x ∈ t.nodes) (hy : y ∈ t.nodes)
    (hxy : x.identifier = y.identifier) : x = y := by
  have hd := sc_nodup h
  unfold Tree.nodeIds at hd
  exact List.inj_on_of_nodup_map hd hx hy hxy

/-! The scanned key sequence of a contiguous tree is `[n-1, ..., 1]`. -/

theorem countdown_eq (m : Nat) :
    countdown m = ((List.range m).map (fun j : Nat => (j : Int) + 1)).reverse := by
  induction m with
  | zero => rfl
  | succ b ih =>
    rw [List.range_succ]
    simp only [List.map_append, List.reverse_append]
    rw [countdown, ih]
    rfl

theorem sc_keys_countdown {t : Tree} (h : sortedContiguous t = true) :
    (t.nodeIds.drop 1).reverse = countdown (t.nodes.length - 1) := by
  rw [sc_nodeIds h, countdown_eq]
  cases hn : t.nodes.length with
  | zero => rfl
  | succ m =>
    rw [List.range_succ_eq_map]
    simp only [List.map_cons, List.drop_succ_cons, List.drop_zero, List.map_map,
      Nat.succ_sub_one]
    congr 1

/-! Branch lemmas for one pruning step. -/

theorem parentIdent_of {t : Tree} {i p : Int} {n np : TNode}
    (hget : t.get_node i = some n) (hp : n.parent = some p)
    (hgp : t.get_node p = some np) :
    t.parentIdent i = .ok np.identifier := by
  simp [Tree.parentIdent, hget, hp, hgp]

theorem pruneStep_le {internal : List Int} {split : Int} {t : Tree} {e k : Int}
    (hpy : pyIndex internal split = .ok e) (hke : ¬ k > e) :
    pruneStep internal split t k = (t, none) := by
  simp [pruneStep, hpy, hke]

theorem pruneStep_root {internal : List Int} {split : Int} {t : Tree} {e k : Int}
    {nk en : TNode} (hpy : pyIndex internal split = .ok e) (hke : k > e)
    (hgk : t.get_node k = some nk) (hge : t.get_node e = some en)
    (hep : en.parent = none) :
    pruneStep internal split t k = (t.remove_node k, none) := by
  simp [pruneStep, hpy, hke, hgk, hge, hep]

theorem pruneStep_keep {internal : List Int} {split : Int} {t : Tree} {e k : Int}
    {nk en : TNode} (hpy : pyIndex internal split = .ok e) (hke : k > e)
    (hgk : t.get_node k = some nk) (hge : t.get_node e = some en)
    (hep : en.parent ≠ none) {pe pk : Int}
    (hpe : t.parentIdent e = .ok pe) (hpk : t.parentIdent k = .ok pk)
    (heq : pe = pk) :
    pruneStep internal split t k = (t, none) := by
  simp [pruneStep, hpy, hke, hgk, hge, hep, hpe, hpk, heq]

theorem pruneStep_rm {internal : List Int} {split : Int} {t : Tree} {e k : Int}
    {nk en : TNode} (hpy : pyIndex internal split = .ok e) (hke : k > e)
    (hgk : t.get_node k = some nk) (hge : t.get_node e = some en)
    (hep : en.parent ≠ none) {pe pk : Int}
    (hpe : t.parentIdent e = .ok pe) (hpk : t.parentIdent k = .ok pk)
    (hne : pe ≠ pk) :
    pruneStep internal split t k = (t.remove_node k, none) := by
  simp [pruneStep, hpy, hke, hgk, hge, hep, hpe, hpk, hne]

theorem keepNode_true_iff {e : Int} {ep : Option Int} {x : TNode} :
    keepNode e ep x = true ↔ (x.identifier ≤ e ∨ (ep ≠ none ∧ x.parent = ep)) := by
  unfold keepNode
  cases ep with
  | none => simp
  | some p => simp [beq_iff_eq]

/-- One scan step on the mid-scan tree: processing key `b+1` turns stage
`b+1` into stage `b` and raises nothing. -/
theorem pruneStep_stage {internal : List Int} {split : Int} {t : Tree} {e : Int}
    {en : TNode} (hsc : sortedContiguous t = true) (hpar : parentsOk t = true)
    (hget : t.get_node e = some en) (hpy : pyIndex internal split = .ok e)
    (b : Nat) (hb : (b : Int) + 1 < (t.nodes.length : Int)) :
    pruneStep internal split (stageTree t e en.parent ((b : Int) + 1)) ((b : Int) + 1)
      = (stageTree t e en.parent (b : Int), none) := by
  obtain ⟨hen_mem, hen_id⟩ := get_node_eq_some hget
  have he_bounds := sc_id_bounds hsc hen_mem
  rw [hen_id] at he_bounds
  obtain ⟨he0, heN⟩ := he_bounds
  obtain ⟨kb, hkb_mem, hkb_id⟩ := sc_exists_node hsc
    (show (0 : Int) ≤ (b : Int) + 1 by omega) hb
  have hstage_get : ∀ (c : Int) (x : TNode), x ∈ t.nodes →
      (x.identifier ≤ c || keepNode e en.parent x) = true →
      (stageTree t e en.parent c).get_node x.identifier = some x := by
    intro c x hx hkeep
    exact filtered_get_node (sc_nodup hsc) hx hkeep
  by_cases hke : (b : Int) + 1 > e
  · -- the key was created after the edited node
    have hgk : (stageTree t e en.parent ((b : Int) + 1)).get_node ((b : Int) + 1)
        = some kb := by
      have := hstage_get ((b : Int) + 1) kb hkb_mem (by simp [hkb_id])
      rwa [hkb_id] at this
    have hge : (stageTree t e en.parent ((b : Int) + 1)).get_node e = some en := by
      have := hstage_get ((b : Int) + 1) en hen_mem
        (by simp [keepNode_true_iff, hen_id])
      rwa [hen_id] at this
    cases hep : en.parent with
    | none =>
      -- the edited node is the root: remove the key unconditionally
      rw [hep] at hgk hge hstage_get
      rw [pruneStep_root hpy hke hgk hge hep]
      have hnochild : ∀ x ∈ (stageTree t e none ((b : Int) + 1)).nodes,
          x.parent ≠ some ((b : Int) + 1) := by
        intro x hx hxp
        have hx' := List.mem_filter.mp hx
        have hxb := (parent_lt hpar hx'.1 hxp).2
        have hxkeep := hx'.2
        rw [Bool.or_eq_true] at hxkeep
        rcases hxkeep with h1 | h2
        · simp only [decide_eq_true_iff] at h1
          omega
        · rw [keepNode_true_iff] at h2
          rcases h2 with h2 | ⟨h2, _⟩
          · omega
          · exact h2 rfl
      rw [remove_node_no_children _ _ hnochild]
      refine Prod.ext ?_ rfl
      show Tree.mk _ = _
      unfold stageTree
      rw [List.filter_filter]
      congr 1
      apply List.filter_congr
      intro x hx
      by_cases hxk : x.identifier = (b : Int) + 1
      · have hxe : ¬ x.identifier ≤ e := by omega
        simp [keepNode, hxk, hxe, hke]
      · by_cases hxb : x.identifier ≤ (b : Int)
        · have hxb1 : x.identifier ≤ (b : Int) + 1 := by omega
          simp [hxk, hxb, hxb1]
        · have hxb1 : ¬ x.identifier ≤ (b : Int) + 1 := by omega
          simp [hxk, hxb, hxb1]
    | some p =>
      -- the edited node has a parent: compare parents
      rw [hep] at hgk hge hstage_get
      have hp_bounds := parent_lt hpar hen_mem hep
      rw [hen_id] at hp_bounds
      obtain ⟨np, hnp_mem, hnp_id⟩ := sc_exists_node hsc hp_bounds.1 (by omega)
      have hgp : (stageTree t e (some p) ((b : Int) + 1)).get_node p = some np := by
        have := hstage_get ((b : Int) + 1) np hnp_mem
          (by simp only [Bool.or_eq_true, decide_eq_true_iff]
              exact Or.inl (by omega))
        rwa [hnp_id] at this
      have hpe : (stageTree t e (some p) ((b : Int) + 1)).parentIdent e = .ok p := by
        rw [parentIdent_of hge hep hgp, hnp_id]
      have hkb_ne0 : kb.identifier ≠ 0 := by omega
      obtain ⟨q, hq, hq0, hqlt⟩ := parentsOk_nonroot hpar hkb_mem hkb_ne0
      obtain ⟨nq, hnq_mem, hnq_id⟩ := sc_exists_node hsc hq0 (by omega)
      have hgq : (stageTree t e (some p) ((b : Int) + 1)).get_node q = some nq := by
        have := hstage_get ((b : Int) + 1) nq hnq_mem
          (by simp only [Bool.or_eq_true, decide_eq_true_iff]
              exact Or.inl (by omega))
        rwa [hnq_id] at this
      have hpk : (stageTree t e (some p) ((b : Int) + 1)).parentIdent ((b : Int) + 1)
          = .ok q := by
        rw [parentIdent_of hgk hq hgq, hnq_id]
      by_cases hpq : p = q
      · -- same parent as the edited node: the key is preserved
        rw [pruneStep_keep hpy hke hgk hge (by simp [hep]) hpe hpk hpq]
        refine Prod.ext ?_ rfl
        show stageTree _ _ _ _ = stageTree _ _ _ _
        unfold stageTree
        congr 1
        apply List.filter_congr
        intro x hx
        by_cases hxk : x.identifier = (b : Int) + 1
        · have hxkb : x = kb := sc_unique hsc hx hkb_mem (by omega)
          have hxq : x.parent = some p := by rw [hxkb, hq, hpq]
          have hxb1 : x.identifier ≤ (b : Int) + 1 := by omega
          simp [keepNode, hxq, hxb1]
        · by_cases hxb : x.identifier ≤ (b : Int)
          · have hxb1 : x.identifier ≤ (b : Int) + 1 := by omega
            simp [hxb, hxb1]
          · have hxb1 : ¬ x.identifier ≤ (b : Int) + 1 := by omega
            simp [hxb, hxb1]
      · -- different parent: the key is removed
        rw [pruneStep_rm hpy hke hgk hge (by simp [hep]) hpe hpk hpq]
        have hnochild : ∀ x ∈ (stageTree t e (some p) ((b : Int) + 1)).nodes,
            x.parent ≠ some ((b : Int) + 1) := by
          intro x hx hxp
          have hx' := List.mem_filter.mp hx
          have hxb := (parent_lt hpar hx'.1 hxp).2
          have hxkeep := hx'.2
          rw [Bool.or_eq_true] at hxkeep
          rcases hxkeep with h1 | h2
          · simp only [decide_eq_true_iff] at h1
            omega
          · rw [keepNode_true_iff] at h2
            rcases h2 with h2 | ⟨_, h2⟩
            · omega
            · rw [hxp] at h2
              have : (b : Int) + 1 = p := by simpa using h2
              omega
        rw [remove_node_no_children _ _ hnochild]
        refine Prod.ext ?_ rfl
        show Tree.mk _ = _
        unfold stageTree
        rw [List.filter_filter]
        congr 1
        apply List.filter_congr
        intro x hx
        by_cases hxk : x.identifier = (b : Int) + 1
        · have hxkb : x = kb := sc_unique hsc hx hkb_mem (by omega)
          have hxq : x.parent = some q := by rw [hxkb, hq]
          have hxe : ¬ x.identifier ≤ e := by omega
          have hqp : ¬ (some q == some p) = true := by
            simp only [beq_iff_eq, Option.some.injEq]
            omega
          simp [keepNode, hxk, hxe, hxq, hqp, hke]
        · by_cases hxb : x.identifier ≤ (b : Int)
          · have hxb1 : x.identifier ≤ (b : Int) + 1 := by omega
            simp [hxk, hxb, hxb1]
          · have hxb1 : ¬ x.identifier ≤ (b : Int) + 1 := by omega
            simp [hxk, hxb, hxb1]
  · -- the key is not newer than the edited node: nothing happens
    rw [pruneStep_le hpy hke]
    refine Prod.ext ?_ rfl
    show stageTree _ _ _ _ = stageTree _ _ _ _
    unfold stageTree
    congr 1
    apply List.filter_congr
    intro x hx
    by_cases hxk : x.identifier = (b : Int) + 1
    · have hxe : x.identifier ≤ e := by omega
      have hxb1 : x.identifier ≤ (b : Int) + 1 := by omega
      simp [keepNode, hxe, hxb1]
    · by_cases hxb : x.identifier ≤ (b : Int)
      · have hxb1 : x.identifier ≤ (b : Int) + 1 := by omega
        simp [hxb, hxb1]
      · have hxb1 : ¬ x.identifier ≤ (b : Int) + 1 := by omega
        simp [hxb, hxb1]

/-- The three components of tree well-formedness. -/
theorem wf_parts {t : Tree} (hwf : wfTree t = true) :
    sortedContiguous t = true ∧ parentsOk t = true ∧ pairsOk t = true := by
  unfold wfTree at hwf
  simp only [Bool.and_eq_true] at hwf
  exact ⟨hwf.1.1, hwf.1.2, hwf.2⟩

/-- Scanning keys `b, b-1, ..., 1` from stage `b` ends at stage `0` with
no exception. -/
theorem pruneLoop_stage {internal : List Int} {split : Int} {t : Tree} {e : Int}
    {en : TNode} (hsc : sortedContiguous t = true) (hpar : parentsOk t = true)
    (hget : t.get_node e = some en) (hpy : pyIndex internal split = .ok e) :
    ∀ (b : Nat), (b : Int) < (t.nodes.length : Int) →
      pruneLoop internal split (stageTree t e en.parent (b : Int)) (countdown b)
        = (stageTree t e en.parent 0, none) := by
  intro b
  induction b with
  | zero =>
    intro _
    rfl
  | succ b ih =>
    intro hb
    have hb' : (b : Int) + 1 < (t.nodes.length : Int) := by push_cast at hb; omega
    have hstep := pruneStep_stage hsc hpar hget hpy b hb'
    rw [show ((b + 1 : Nat) : Int) = (b : Int) + 1 by push_cast; ring]
    show pruneLoop internal split _ (((b : Int) + 1) :: countdown b) = _
    rw [pruneLoop, hstep]
    exact ih (by omega)

/-- Stage `0` is exactly the predicted pruned tree. -/
theorem stage_zero {t : Tree} {e : Int} {en : TNode}
    (hsc : sortedContiguous t = true) (hget : t.get_node e = some en) :
    stageTree t e en.parent 0 = prunedTree t e en.parent := by
  obtain ⟨hen_mem, hen_id⟩ := get_node_eq_some hget
  have he0 : 0 ≤ e := by
    have := (sc_id_bounds hsc hen_mem).1
    omega
  unfold stageTree prunedTree
  congr 1
  apply List.filter_congr
  intro x hx
  have hx0 := (sc_id_bounds hsc hx).1
  by_cases hxe : x.identifier ≤ (0 : Int)
  · have hxe' : x.identifier ≤ e := by omega
    simp [keepNode, hxe', hxe]
  · simp [hxe]

/-- The full pruning scan of a well-formed tree: no exception, and the
result keeps exactly the nodes `keepNode` predicts. -/
theorem pruneChar {internal : List Int} {split : Int} {t : Tree} {e : Int}
    {en : TNode} (hwf : wfTree t = true) (hget : t.get_node e = some en)
    (hpy : pyIndex internal split = .ok e) :
    pruneLoop internal split t ((t.nodeIds.drop 1).reverse)
      = (prunedTree t e en.parent, none) := by
  obtain ⟨hsc, hpar, hpair⟩ := wf_parts hwf
  obtain ⟨hen_mem, hen_id⟩ := get_node_eq_some hget
  have hn1 : 1 ≤ t.nodes.length := List.length_pos.mpr (by
    intro hnil
    rw [hnil] at hen_mem
    exact absurd hen_mem (List.not_mem_nil en))
  have ht : stageTree t e en.parent ((t.nodes.length - 1 : Nat) : Int) = t := by
    unfold stageTree
    have : t.nodes.filter (fun x =>
        x.identifier ≤ ((t.nodes.length - 1 : Nat) : Int) || keepNode e en.parent x)
        = t.nodes := by
      rw [List.filter_eq_self]
      intro x hx
      have hxb := sc_id_bounds hsc hx
      have : x.identifier ≤ ((t.nodes.length - 1 : Nat) : Int) := by
        push_cast
        omega
      simp [this]
    rw [this]
  rw [sc_keys_countdown hsc]
  have hloop := pruneLoop_stage hsc hpar hget hpy (t.nodes.length - 1)
    (by push_cast; omega)
  rw [ht] at hloop
  rw [hloop, stage_zero hsc hget]

/-- The pruning phase of the source (lines 994-1005) on a well-formed
tree. -/
theorem prunePhase_char {t : Tree} {split : Int} {e : Int} {en : TNode}
    (hwf : wfTree t = true) (hget : t.get_node e = some en)
    (hpy : pyIndex (internal_nodes_of t) split = .ok e) :
    prunePhase t split = (prunedTree t e en.parent, none) := by
  unfold prunePhase
  exact pruneChar hwf hget hpy

/-- The recompute loop performs at most `budget` splits. -/
theorem partial_loop_trace_length_le (alg : Alg) :
    ∀ (budget : Nat) (obj : HiPartObject),
      (partial_loop alg budget obj).2.length ≤ budget := by
  intro budget
  induction budget with
  | zero =>
    intro obj
    unfold partial_loop
    cases alg.select_kid obj.tree.leaves <;> simp
  | succ b ih =>
    intro obj
    unfold partial_loop
    cases alg.select_kid obj.tree.leaves with
    | none => simp
    | some nid => simpa using ih (split_function alg obj nid)

/-- C4: `partial_predict` always terminates (it is a total function of the
state), and the number of Splitter invocations it performs — the length
of its split trace, one split per loop iteration before the next
selection — is at most `max_clusters_number`. -/
theorem C4_partial_predict_split_budget (alg : Alg) (obj : HiPartObject) :
    (partial_predict alg obj).2.length ≤ obj.max_clusters_number :=
  le_trans (partial_loop_trace_length_le alg _ obj) (Nat.sub_le _ _)

/-- C10: `main` raises its `TypeError` exactly for inputs that are not
instances of one of the four supported clustering classes, and when it
raises, no temporary file has been created (no side effect performed). -/
theorem C10_main_typecheck_guard :
    ∀ k : InputKind,
      ((main_typecheck k).2 = !(isSupported k)) ∧
      ((main_typecheck k).2 = true ↔
        ¬(k = .dePDDP ∨ k = .iPDDP ∨ k = .kM_PDDP ∨ k = .PDDP)) ∧
      ((main_typecheck k).1 =
        if isSupported k then [.createTempFile, .createTempFile, .createTempFile]
        else []) := by
  intro k
  cases k <;> exact ⟨by decide, by decide, by decide⟩

/-- C2 counterexample: `split_index = -1` is negative yet raises nothing
(Python's negative indexing wraps around), and on a one-node tree an
out-of-range `split_index = 1` does raise an `IndexError` but only after
the object was mutated: `cluster_color` has already been reset from 99
to 2, so the operation is not all-or-nothing. -/
theorem C2_counterexample :
    (recalculate_after_spchange exAlg exObj5 (-1) 7).2 = none ∧
    (recalculate_after_spchange exAlg exObj1 1 7).2 = some PyErr.indexError ∧
    exObj1.cluster_color = 99 ∧
    (recalculate_after_spchange exAlg exObj1 1 7).1.cluster_color = 2 := by
  decide

/-- C3 counterexample: on a tree whose ids are `{0, 1, 3}` (not the
contiguous range), the source computes `internal_nodes = [0, 2]`, which
differs from the sorted list of non-leaf ids `[0]` — it even contains
`2`, which is not the id of any node of the tree. -/
theorem C3_counterexample :
    internal_nodes_of exTree3 = [0, 2] ∧
    internal_nodes_spec exTree3 = [0] ∧
    exTree3.get_node 2 = none := by
  decide

/-- C7 counterexample: a valid edit (split 0 of a three-node tree) flips
the edited node's `split_permission` from `False` to `True`, so the
edited node is not unchanged in every field except its splitpoint. -/
theorem C7_counterexample :
    (exObj7.tree.get_node 0).map (fun n => n.data.split_permition) = some false ∧
    ((recalculate_after_spchange exAlg exObj7 0 7).1.tree.get_node 0).map
      (fun n => n.data.split_permition) = some true ∧
    (recalculate_after_spchange exAlg exObj7 0 7).2 = none := by
  decide

/-- C8 counterexample: with a deterministic Splitter and selector, two
identical valid edits of split 1 produce different trees — the first
call's recompute budget is exhausted before the edited node is re-split,
so the second call's internal-node list differs and it edits another
node. -/
theorem C8_counterexample :
    (recalculate_after_spchange exAlg8 exObj8 1 7).2 = none ∧
    (recalculate_after_spchange exAlg8
        (recalculate_after_spchange exAlg8 exObj8 1 7).1 1 7).2 = none ∧
    (recalculate_after_spchange exAlg8
        (recalculate_after_spchange exAlg8 exObj8 1 7).1 1 7).1.tree ≠
      (recalculate_after_spchange exAlg8 exObj8 1 7).1.tree := by
  decide

/-- C9 counterexample: editing split 0 of the scenario tree removes node
1 during pruning, and the recompute loop then creates a fresh node that
reuses the removed identifier 1 (with different contents), so ids of
removed nodes are reused. -/
theorem C9_counterexample :
    ((1 : Int) ∈ exObj5.tree.nodeIds) ∧
    ¬((1 : Int) ∈ (prunePhase exObj5.tree 0).1.nodeIds) ∧
    ((1 : Int) ∈ (recalculate_after_spchange exAlg exObj5 0 7).1.tree.nodeIds) ∧
    (recalculate_after_spchange exAlg exObj5 0 7).1.tree.get_node 1 ≠
      exObj5.tree.get_node 1 ∧
    (recalculate_after_spchange exAlg exObj5 0 7).2 = none := by
  decide

set_option maxHeartbeats 2000000 in
/-- C5: on the scenario tree (root 0 with leaves 1, 2) with a budget of
2, editing split 0 with any new splitpoint removes nodes 1 and 2, writes
the new splitpoint on node 0, performs exactly one split (of node 0)
creating two fresh leaves 1 and 2, and stops with the cluster budget
reached (ST1: the selector still offers a node, but
`found_clusters = 2 >= max_clusters_number = 2`). -/
theorem C5_scenario (v : ℚ) :
    (recalculate_after_spchange exAlg exObj5 0 v).2 = none ∧
    (prunePhase exObj5.tree 0).1.nodeIds = [0] ∧
    ((recalculate_after_spchange exAlg exObj5 0 v).1.tree.get_node 0).map
      (fun n => n.data.splitpoint) = some (some v) ∧
    (partial_predict exAlg (recalcMid exObj5 0 v).1).2 = [0] ∧
    (recalculate_after_spchange exAlg exObj5 0 v).1.tree.nodeIds = [0, 1, 2] ∧
    (recalculate_after_spchange exAlg exObj5 0 v).1.tree.children_ids 0 = [1, 2] ∧
    (recalculate_after_spchange exAlg exObj5 0 v).1.tree.is_leaf 1 = true ∧
    (recalculate_after_spchange exAlg exObj5 0 v).1.tree.is_leaf 2 = true ∧
    (recalcMid exObj5 0 v).1.tree.leaves.length + 1 = exObj5.max_clusters_number ∧
    (exAlg.select_kid (recalculate_after_spchange exAlg exObj5 0 v).1.tree.leaves).isSome
      = true :=
  ⟨rfl, by decide, rfl, rfl, rfl, rfl, rfl, rfl, rfl, rfl⟩

/-- C1: for every node id `k` present in a well-formed tree with
`k > edited_id`, after the pruning scan (descending creation order, the
minimum id untouched) the node is removed if and only if it is not
preserved by the sibling rule: when the edited node is the root every
such node is removed; otherwise it survives exactly when it hangs off
the edited node's direct parent. -/
theorem C1_prune_sibling_rule {t : Tree} {split : Int} {e : Int} {en : TNode}
    (hwf : wfTree t = true) (hget : t.get_node e = some en)
    (hpy : pyIndex (internal_nodes_of t) split = .ok e) :
    (prunePhase t split).2 = none ∧
    ∀ nk ∈ t.nodes, nk.identifier > e →
      (nk ∈ (prunePhase t split).1.nodes ↔
        (en.parent ≠ none ∧ nk.parent = en.parent)) := by
  rw [prunePhase_char hwf hget hpy]
  refine ⟨rfl, ?_⟩
  intro nk hnk hgt
  unfold prunedTree
  simp only [List.mem_filter]
  constructor
  · rintro ⟨_, hkeep⟩
    rw [keepNode_true_iff] at hkeep
    rcases hkeep with h | h
    · omega
    · exact h
  · intro h
    exact ⟨hnk, keepNode_true_iff.mpr (Or.inr h)⟩

/-- Witness for C1 on the two-level tree, editing split 1 (node 1): node
2, created after node 1 but sharing its parent, survives the scan. -/
theorem C1_prune_sibling_rule_witness :
    wfTree exTree2 = true ∧
    (prunePhase exTree2 1).2 = none ∧
    (exNode 2 (some 0) (some 9) true none [5, 6] ∈ (prunePhase exTree2 1).1.nodes ↔
      ((exNode 1 (some 0) (some 5) true (some 20) [1, 2, 3, 4]).parent ≠ none ∧
        (exNode 2 (some 0) (some 9) true none [5, 6]).parent =
          (exNode 1 (some 0) (some 5) true (some 20) [1, 2, 3, 4]).parent)) := by
  have h := @C1_prune_sibling_rule exTree2 1 1
    (exNode 1 (some 0) (some 5) true (some 20) [1, 2, 3, 4])
    (by decide) (by decide) rfl
  exact ⟨by decide, h.1, h.2 _ (by decide) (by decide)⟩

/-- The mid-state characterisation: on a well-formed tree with edited
node `en`, `recalcMid` raises nothing and produces `midState`. -/
theorem recalcMid_char {obj : HiPartObject} {split : Int} {v : ℚ} {e : Int}
    {en : TNode} (hwf : wfTree obj.tree = true)
    (hget : obj.tree.get_node e = some en)
    (hpy : pyIndex (internal_nodes_of obj.tree) split = .ok e) :
    recalcMid obj split v = (midState obj e en v, none) := by
  obtain ⟨hsc, hpar, hpair⟩ := wf_parts hwf
  obtain ⟨hen_mem, hen_id⟩ := get_node_eq_some hget
  have hPget : (prunedTree obj.tree e en.parent).get_node e = some en := by
    have := filtered_get_node (t := obj.tree) (sc_nodup hsc) hen_mem
      (show keepNode e en.parent en = true from
        keepNode_true_iff.mpr (Or.inl (le_of_eq hen_id)))
    rwa [hen_id] at this
  have ht1get : (permission_reset (prunedTree obj.tree e en.parent)).get_node e
      = some (if (prunedTree obj.tree e en.parent).is_leaf en.identifier ∧
            en.data.split_criterion ≠ none then
          { en with data := { en.data with split_permition := true } }
        else en) := by
    unfold permission_reset
    rw [map_get_node (idparent_permission _) _ _, hPget]
    rfl
  unfold recalcMid
  rw [prunePhase_char hwf hget hpy]
  simp only [hpy]
  unfold permission_reset at ht1get ⊢
  rw [ht1get]
  rfl

/-- C6: after pruning and before the recompute loop, every remaining leaf
with a known split criterion has `split_permission = True`, `node_ids` is
the remaining node count minus one, `cluster_color` is the remaining leaf
count plus one, and the edited node's `splitpoint` is the new value. -/
theorem C6_reset_state {obj : HiPartObject} {split : Int} {v : ℚ} {e : Int}
    {en : TNode} (hwf : wfTree obj.tree = true)
    (hget : obj.tree.get_node e = some en)
    (hpy : pyIndex (internal_nodes_of obj.tree) split = .ok e) :
    (recalcMid obj split v).2 = none ∧
    (∀ n ∈ (recalcMid obj split v).1.tree.nodes,
      (recalcMid obj split v).1.tree.is_leaf n.identifier = true →
      n.data.split_criterion ≠ none → n.data.split_permition = true) ∧
    (recalcMid obj split v).1.node_ids
      = ((recalcMid obj split v).1.tree.nodes.length : Int) - 1 ∧
    (recalcMid obj split v).1.cluster_color
      = ((recalcMid obj split v).1.tree.leaves.length : Int) + 1 ∧
    ((recalcMid obj split v).1.tree.get_node e).map (fun n => n.data.splitpoint)
      = some (some v) := by
  obtain ⟨hsc, hpar, hpair⟩ := wf_parts hwf
  obtain ⟨hen_mem, hen_id⟩ := get_node_eq_some hget
  rw [recalcMid_char hwf hget hpy]
  have hPget : (prunedTree obj.tree e en.parent).get_node e = some en := by
    have := filtered_get_node (t := obj.tree) (sc_nodup hsc) hen_mem
      (show keepNode e en.parent en = true from
        keepNode_true_iff.mpr (Or.inl (le_of_eq hen_id)))
    rwa [hen_id] at this
  refine ⟨rfl, ?_, ?_, ?_, ?_⟩
  · -- every remaining leaf with a criterion has permission on
    intro n hn hleaf hcrit
    have hleafP : (prunedTree obj.tree e en.parent).is_leaf n.identifier = true := by
      have h1 : (midState obj e en v).tree.is_leaf n.identifier
          = (prunedTree obj.tree e en.parent).is_leaf n.identifier := by
        unfold midState Tree.setData permission_reset
        rw [map_is_leaf (idparent_setData _ _), map_is_leaf (idparent_permission _)]
      rw [← h1]
      exact hleaf
    unfold midState Tree.setData permission_reset at hn
    simp only [List.map_map, List.mem_map, Function.comp] at hn
    obtain ⟨m, hm, hrule⟩ := hn
    have hgmid : ((if (prunedTree obj.tree e en.parent).is_leaf m.identifier
          ∧ m.data.split_criterion ≠ none then
        { m with data := { m.data with split_permition := true } }
      else m) : TNode).identifier = m.identifier := by
      split <;> rfl
    by_cases hme : m.identifier = e
    · -- m is the edited node: its data was rewritten from the edited
      -- record, whose permission the earlier pass already handled
      rw [if_pos (by rw [hgmid]; exact beq_iff_eq.mpr hme)] at hrule
      subst hrule
      simp only [hgmid] at hleafP hcrit ⊢
      by_cases hcondE : (prunedTree obj.tree e en.parent).is_leaf en.identifier = true
          ∧ en.data.split_criterion ≠ none
      · simp only [if_pos hcondE]
      · rw [if_neg hcondE] at hcrit ⊢
        exfalso
        apply hcondE
        refine ⟨?_, by simpa using hcrit⟩
        rw [show en.identifier = m.identifier from by rw [hen_id, hme]]
        exact hleafP
    · rw [if_neg (by rw [hgmid]; simp [hme])] at hrule
      subst hrule
      simp only [hgmid] at hleafP hcrit ⊢
      by_cases hcondM : (prunedTree obj.tree e en.parent).is_leaf m.identifier = true
          ∧ m.data.split_criterion ≠ none
      · simp only [if_pos hcondM]
      · rw [if_neg hcondM] at hcrit ⊢
        exact absurd ⟨hleafP, hcrit⟩ hcondM
  · -- node_ids = remaining node count - 1
    show ((permission_reset (prunedTree obj.tree e en.parent)).nodes.length : Int) - 1 = _
    unfold midState Tree.setData
    simp
  · -- cluster_color = remaining leaf count + 1
    show ((permission_reset (prunedTree obj.tree e en.parent)).leaves.length : Int) + 1 = _
    unfold midState Tree.setData
    rw [map_leaves (idparent_setData _ _)]
    simp
  · -- the edited node's splitpoint is the new value
    show (((permission_reset (prunedTree obj.tree e en.parent)).setData e
        _).get_node e).map _ = _
    unfold Tree.setData
    rw [map_get_node (idparent_setData _ _)]
    have ht1get : (permission_reset (prunedTree obj.tree e en.parent)).get_node e
        = some (if (prunedTree obj.tree e en.parent).is_leaf en.identifier = true ∧
              en.data.split_criterion ≠ none then
            { en with data := { en.data with split_permition := true } }
          else en) := by
      unfold permission_reset
      rw [map_get_node (idparent_permission _) _ _, hPget]
      rfl
    unfold permission_reset at ht1get ⊢
    rw [ht1get]
    by_cases hcond : (prunedTree obj.tree e en.parent).is_leaf en.identifier = true
        ∧ en.data.split_criterion ≠ none
    · rw [if_pos hcond]
      simp [hen_id]
    · rw [if_neg hcond]
      simp [hen_id]

/-- Witness for C6 on the scenario object, editing split 0. -/
theorem C6_reset_state_witness :
    (recalcMid exObj5 0 7).2 = none ∧
    (recalcMid exObj5 0 7).1.node_ids
      = ((recalcMid exObj5 0 7).1.tree.nodes.length : Int) - 1 ∧
    (recalcMid exObj5 0 7).1.cluster_color
      = ((recalcMid exObj5 0 7).1.tree.leaves.length : Int) + 1 ∧
    ((recalcMid exObj5 0 7).1.tree.get_node 0).map (fun n => n.data.splitpoint)
      = some (some 7) := by
  have h := @C6_reset_state exObj5 0 7 0
    (exNode 0 none (some 1) true (some 10) [1, 2]) (by decide) (by decide) rfl
  exact ⟨h.1, h.2.2.1, h.2.2.2.1, h.2.2.2.2⟩

/-! Exception characterisation of the pipeline, for C2. -/

theorem parentIdent_error_ne {t : Tree} {i : Int} {er : PyErr}
    (h : t.parentIdent i = .error er) : er ≠ .indexError := by
  cases hg : t.get_node i with
  | none =>
    have h2 : t.parentIdent i = .error .nodeAbsentError := by
      simp [Tree.parentIdent, hg]
    rw [h2] at h
    injection h with h
    subst h
    simp
  | some n =>
    cases hp : n.parent with
    | none =>
      have h2 : t.parentIdent i = .error .attributeError := by
        simp [Tree.parentIdent, hg, hp]
      rw [h2] at h
      injection h with h
      subst h
      simp
    | some p =>
      cases hgp : t.get_node p with
      | none =>
        have h2 : t.parentIdent i = .error .attributeError := by
          simp [Tree.parentIdent, hg, hp, hgp]
        rw [h2] at h
        injection h with h
        subst h
        simp
      | some pn =>
        have h2 : t.parentIdent i = .ok pn.identifier := by
          simp [Tree.parentIdent, hg, hp, hgp]
        rw [h2] at h
        exact absurd h (by simp)

theorem pruneStep_pyerr {internal : List Int} {split : Int} (t : Tree) (k : Int)
    {er : PyErr} (h : pyIndex internal split = .error er) :
    pruneStep internal split t k = (t, some er) := by
  unfold pruneStep
  rw [h]

/-- A pruning step either succeeds, or fails with the `IndexError` of the
split index (leaving the tree untouched), or fails with a
non-`IndexError` lookup exception. -/
theorem pruneStep_snd_cases (internal : List Int) (split : Int) (t : Tree) (k : Int) :
    (pruneStep internal split t k).2 = none ∨
    ((pruneStep internal split t k).2 = some .indexError ∧
      pyIndex internal split = .error .indexError ∧
      (pruneStep internal split t k).1 = t) ∨
    ((pruneStep internal split t k).2 = some .attributeError ∨
      (pruneStep internal split t k).2 = some .nodeAbsentError) := by
  cases hpy : pyIndex internal split with
  | error er =>
    have her := (pyIndex_error_iff.mp hpy).1
    subst her
    rw [pruneStep_pyerr t k hpy]
    exact Or.inr (Or.inl ⟨rfl, rfl, rfl⟩)
  | ok e =>
    by_cases hk : k > e
    · cases hgk : t.get_node k with
      | none =>
        left
        simp [pruneStep, hpy, hk, hgk]
      | some nk =>
        cases hge : t.get_node e with
        | none =>
          right; right; left
          simp [pruneStep, hpy, hk, hgk, hge]
        | some en =>
          by_cases hep : en.parent = none
          · left
            rw [pruneStep_root hpy hk hgk hge hep]
          · cases hpe : t.parentIdent e with
            | error er =>
              have her := parentIdent_error_ne hpe
              have hout : (pruneStep internal split t k).2 = some er := by
                simp [pruneStep, hpy, hk, hgk, hge, hep, hpe]
              cases er with
              | indexError => exact absurd rfl her
              | attributeError => exact Or.inr (Or.inr (Or.inl hout))
              | nodeAbsentError => exact Or.inr (Or.inr (Or.inr hout))
            | ok pe =>
              cases hpk : t.parentIdent k with
              | error er =>
                have her := parentIdent_error_ne hpk
                have hout : (pruneStep internal split t k).2 = some er := by
                  simp [pruneStep, hpy, hk, hgk, hge, hep, hpe, hpk]
                cases er with
                | indexError => exact absurd rfl her
                | attributeError => exact Or.inr (Or.inr (Or.inl hout))
                | nodeAbsentError => exact Or.inr (Or.inr (Or.inr hout))
              | ok pk =>
                by_cases hne : pe ≠ pk
                · left
                  rw [pruneStep_rm hpy hk hgk hge hep hpe hpk hne]
                · left
                  rw [pruneStep_keep hpy hk hgk hge hep hpe hpk (by omega)]
    · left
      rw [pruneStep_le hpy hk]

/-- Loop-level exception characterisation: an `IndexError` escapes the
scan exactly when the split index is bad and the scan runs at all, and in
that case the scan fails on its first step with the tree untouched. -/
theorem pruneLoop_indexError (internal : List Int) (split : Int) :
    ∀ (ks : List Int) (t : Tree),
      ((pruneLoop internal split t ks).2 = some .indexError ↔
        (ks ≠ [] ∧ pyIndex internal split = .error .indexError)) ∧
      (pyIndex internal split = .error .indexError → ks ≠ [] →
        pruneLoop internal split t ks = (t, some .indexError)) := by
  intro ks
  induction ks with
  | nil =>
    intro t
    refine ⟨by simp [pruneLoop], fun _ h => absurd rfl h⟩
  | cons k ks ih =>
    intro t
    have hcons : (k :: ks) ≠ [] := by simp
    constructor
    · rcases pruneStep_snd_cases internal split t k with h0 | ⟨hie, hpy, ht⟩ | herr
      · have hstep : pruneStep internal split t k
            = ((pruneStep internal split t k).1, none) := by
          rw [← h0]
        have hnotie : ¬ pyIndex internal split = .error .indexError := by
          intro hcontra
          rw [pruneStep_pyerr t k hcontra] at h0
          exact absurd h0 (by simp)
        rw [pruneLoop, hstep]
        rw [(ih (pruneStep internal split t k).1).1]
        simp [hnotie]
      · have hstep : pruneStep internal split t k = (t, some .indexError) :=
          Prod.ext ht hie
        rw [pruneLoop, hstep]
        simp [hpy]
      · have hnotie : ¬ pyIndex internal split = .error .indexError := by
          intro hcontra
          rcases herr with h | h <;>
            · rw [pruneStep_pyerr t k hcontra] at h
              exact absurd h (by simp)
        rcases herr with h | h <;>
        · have hstep : pruneStep internal split t k
              = ((pruneStep internal split t k).1, (pruneStep internal split t k).2) := rfl
          rw [pruneLoop]
          rw [h] at hstep
          rw [hstep]
          simp [hnotie, h]
    · intro hpy hne
      rw [pruneLoop, pruneStep_pyerr t k hpy]

/-- Pipeline-level exception characterisation of `recalcMid`. -/
theorem recalcMid_indexError (obj : HiPartObject) (split : Int) (v : ℚ) :
    ((recalcMid obj split v).2 = some .indexError ↔
      pyIndex (internal_nodes_of obj.tree) split = .error .indexError) ∧
    (pyIndex (internal_nodes_of obj.tree) split = .error .indexError →
      2 ≤ obj.tree.nodes.length →
      recalcMid obj split v = (obj, some .indexError)) := by
  constructor
  · unfold recalcMid prunePhase
    cases hpp : pruneLoop (internal_nodes_of obj.tree) split obj.tree
        ((obj.tree.nodeIds.drop 1).reverse) with
    | mk t' er =>
      have hloop := (pruneLoop_indexError (internal_nodes_of obj.tree) split
        ((obj.tree.nodeIds.drop 1).reverse) obj.tree).1
      rw [hpp] at hloop
      cases er with
      | none =>
        simp only
        cases hpy : pyIndex (internal_nodes_of obj.tree) split with
        | error er' =>
          have her' := (pyIndex_error_iff.mp hpy).1
          subst her'
          simp [hpy]
        | ok e =>
          cases hge : t'.get_node e with
          | none =>
            have hm : (permission_reset t').get_node e = none := by
              unfold permission_reset
              rw [map_get_node (idparent_permission _) _ _, hge]
              rfl
            simp [hpy, hm]
          | some n =>
            obtain ⟨gn, hm⟩ : ∃ gn, (permission_reset t').get_node e = some gn := by
              unfold permission_reset
              rw [map_get_node (idparent_permission _) _ _, hge]
              exact ⟨_, rfl⟩
            simp [hpy, hm]
      | some er' =>
        simp only
        constructor
        · intro h
          have : er' = .indexError := by
            injection h
          subst this
          exact (hloop.mp rfl).2
        · intro hpy
          by_cases hks : ((obj.tree.nodeIds.drop 1).reverse) = []
          · rw [hks] at hpp
            rw [pruneLoop] at hpp
            exact absurd (congrArg Prod.snd hpp).symm (by simp)
          · exact hloop.mpr ⟨hks, hpy⟩
  · intro hpy hlen
    have hks : ((obj.tree.nodeIds.drop 1).reverse) ≠ [] := by
      have h1 : obj.tree.nodeIds.length = obj.tree.nodes.length :=
        List.length_map _ _
      intro hnil
      have := congrArg List.length hnil
      simp only [List.length_reverse, List.length_drop, List.length_nil] at this
      omega
    have hloop := (pruneLoop_indexError (internal_nodes_of obj.tree) split
      ((obj.tree.nodeIds.drop 1).reverse) obj.tree).2 hpy hks
    unfold recalcMid prunePhase
    rw [hloop]

/-- C2 amended: the edit raises an `IndexError` exactly when `split_index`
lies outside `[-len(internal_nodes), len(internal_nodes))` — Python's
negative indices wrap around — and when it raises on a tree of at least
two nodes the object is returned completely unmutated.  (On a one-node
tree the error surfaces only at the splitpoint-write line, after the
permission flags and the two counters were already updated.) -/
theorem C2_index_and_atomicity (alg : Alg) (obj : HiPartObject) (split : Int)
    (v : ℚ) :
    ((recalculate_after_spchange alg obj split v).2 = some .indexError ↔
      ¬(-(((internal_nodes_of obj.tree).length : Int)) ≤ split ∧
        split < ((internal_nodes_of obj.tree).length : Int))) ∧
    (2 ≤ obj.tree.nodes.length →
      (recalculate_after_spchange alg obj split v).2 = some .indexError →
      (recalculate_after_spchange alg obj split v).1 = obj) := by
  have hmid := recalcMid_indexError obj split v
  have hsnd : (recalculate_after_spchange alg obj split v).2
      = (recalcMid obj split v).2 := by
    unfold recalculate_after_spchange
    cases hm : recalcMid obj split v with
    | mk o er => cases er <;> simp
  constructor
  · rw [hsnd, hmid.1, pyIndex_error_iff]
    simp
  · intro hlen hie
    rw [hsnd] at hie
    have hpy := hmid.1.mp hie
    have := hmid.2 hpy hlen
    unfold recalculate_after_spchange
    rw [this]

/-- Witness for C2's amended statement: an out-of-range index on the
three-node scenario tree raises the `IndexError` and leaves the object
untouched. -/
theorem C2_index_and_atomicity_witness :
    (recalculate_after_spchange exAlg exObj5 5 7).2 = some PyErr.indexError ∧
    (recalculate_after_spchange exAlg exObj5 5 7).1 = exObj5 := by
  have h := C2_index_and_atomicity exAlg exObj5 5 7
  have hie := h.1.mpr (by decide)
  exact ⟨hie, h.2 (by decide) hie⟩

/-- C3 amended: whenever the tree's identifiers are exactly the
contiguous range `0..n-1` in creation order (as every tree produced by
the engine satisfies), the source's `internal_nodes` equals the spec's
sorted list of non-leaf ids, with the `[0]` fallback; on non-contiguous
identifiers the two differ (see the counterexample). -/
theorem C3_internal_nodes_contiguous {t : Tree} (hsc : sortedContiguous t = true) :
    internal_nodes_of t = internal_nodes_spec t := by
  have hsort : t.nodeIds.insertionSort (fun a b => a ≤ b) = t.nodeIds := by
    apply List.Sorted.insertionSort_eq
    rw [sc_nodeIds hsc]
    refine List.Pairwise.map _ ?_ (List.pairwise_lt_range t.nodes.length)
    intro a b hab
    exact_mod_cast le_of_lt hab
  have hpt : ∀ i ∈ t.nodeIds,
      ((t.leaves.map TNode.identifier).contains i) = t.is_leaf i := by
    intro i hi
    obtain ⟨m, hm, hmi⟩ := mem_nodeIds_iff.mp hi
    by_cases hl : t.is_leaf i = true
    · rw [hl]
      have hmem : i ∈ t.leaves.map TNode.identifier :=
        List.mem_map.mpr ⟨m, List.mem_filter.mpr ⟨hm, by rw [hmi]; exact hl⟩, hmi⟩
      simpa using hmem
    · have hfl : t.is_leaf i = false := by simpa using hl
      rw [hfl]
      have hnmem : ¬ i ∈ t.leaves.map TNode.identifier := by
        intro hmem
        rcases List.mem_map.mp hmem with ⟨y, hy, hyi⟩
        have hyl := (List.mem_filter.mp hy).2
        rw [hyi] at hyl
        rw [hyl] at hfl
        exact absurd hfl (by simp)
      simpa using hnmem
  unfold internal_nodes_of internal_nodes_spec
  dsimp only
  rw [hsort]
  rw [show ((List.range t.nodes.length).map (fun j : Nat => (j : Int)))
      = t.nodeIds from (sc_nodeIds hsc).symm]
  rw [List.filter_congr (fun i hi => congrArg (fun b => !b) (hpt i hi))]

/-- Witness for C3's amended statement on the contiguous scenario tree. -/
theorem C3_internal_nodes_contiguous_witness :
    internal_nodes_of exTree5 = internal_nodes_spec exTree5 ∧
    internal_nodes_of exTree5 = [0] :=
  ⟨C3_internal_nodes_contiguous (by decide), by decide⟩


/-! Frame lemmas for the Splitter model and the recompute loop. -/

theorem get_node_append (t : Tree) (l2 : List TNode) (i : Int) {x : TNode}
    (h : t.get_node i = some x) :
    (Tree.mk (t.nodes ++ l2)).get_node i = some x := by
  unfold Tree.get_node at h ⊢
  rw [List.find?_append, h]
  rfl

theorem children_ids_append (t : Tree) (l2 : List TNode) (i : Int) :
    (Tree.mk (t.nodes ++ l2)).children_ids i
      = t.children_ids i ++ (Tree.mk l2).children_ids i := by
  unfold Tree.children_ids
  rw [List.filter_append, List.map_append]

/-! Branch equations of `split_function`. -/

theorem split_function_none (alg : Alg) (obj : HiPartObject) (nid : Int)
    (hg : obj.tree.get_node nid = none) :
    split_function alg obj nid = obj := by
  simp [split_function, hg]

theorem split_function_degenerate (alg : Alg) (obj : HiPartObject) (nid : Int)
    (n : TNode) (hg : obj.tree.get_node nid = some n)
    (hsp : n.data.splitpoint.orElse (fun _ => alg.params.spOf n.data.samples) = none) :
    split_function alg obj nid =
      { obj with tree := obj.tree.setData nid { n.data with split_criterion := none } } := by
  simp [split_function, hg, hsp]

theorem split_function_split (alg : Alg) (obj : HiPartObject) (nid : Int)
    (n : TNode) (sp : ℚ) (hg : obj.tree.get_node nid = some n)
    (hsp : n.data.splitpoint.orElse (fun _ => alg.params.spOf n.data.samples) = some sp) :
    split_function alg obj nid =
      { obj with
        tree := Tree.mk ((obj.tree.setData nid (splitUpdated alg n sp)).nodes
          ++ splitKids alg obj nid n sp)
        node_ids := obj.node_ids + 2 } := by
  simp [split_function, hg, hsp, splitKids, splitUpdated]

theorem setData_get_node_other {t : Tree} {nid i : Int}
    (hne : i ≠ nid) {x : TNode} (hx : t.get_node i = some x)
    (d : NodeData) : (t.setData nid d).get_node i = some x := by
  unfold Tree.setData
  rw [map_get_node (idparent_setData _ _), hx]
  have hne' : x.identifier ≠ nid := by
    rw [(get_node_eq_some hx).2]
    exact hne
  simp [hne']

/-- A split does not touch the record of any other present node. -/
theorem split_function_get_node_other (alg : Alg) (obj : HiPartObject) (nid i : Int)
    (hne : i ≠ nid) {x : TNode} (hx : obj.tree.get_node i = some x) :
    (split_function alg obj nid).tree.get_node i = some x := by
  cases hg : obj.tree.get_node nid with
  | none => rw [split_function_none alg obj nid hg]; exact hx
  | some n =>
    cases hsp : n.data.splitpoint.orElse (fun _ => alg.params.spOf n.data.samples) with
    | none =>
      rw [split_function_degenerate alg obj nid n hg hsp]
      exact setData_get_node_other hne hx _
    | some sp =>
      rw [split_function_split alg obj nid n sp hg hsp]
      exact get_node_append _ _ _ (setData_get_node_other hne hx _)

/-- A split does not change the child list of any other node. -/
theorem split_function_children_other (alg : Alg) (obj : HiPartObject) (nid i : Int)
    (hne : i ≠ nid) :
    (split_function alg obj nid).tree.children_ids i = obj.tree.children_ids i := by
  have hsd : ∀ d : NodeData, (obj.tree.setData nid d).children_ids i
      = obj.tree.children_ids i := by
    intro d
    unfold Tree.setData
    exact map_children_ids (idparent_setData _ _) _ _
  cases hg : obj.tree.get_node nid with
  | none => rw [split_function_none alg obj nid hg]
  | some n =>
    cases hsp : n.data.splitpoint.orElse (fun _ => alg.params.spOf n.data.samples) with
    | none => rw [split_function_degenerate alg obj nid n hg hsp]; exact hsd _
    | some sp =>
      rw [split_function_split alg obj nid n sp hg hsp]
      show (Tree.mk (_ ++ _)).children_ids i = _
      rw [children_ids_append, hsd]
      have hkids : (Tree.mk (splitKids alg obj nid n sp)).children_ids i = [] := by
        simp [splitKids, Tree.children_ids, Ne.symm hne]
      rw [hkids, List.append_nil]

/-- Splitting a node whose splitpoint and criterion are already set keeps
its record exactly. -/
theorem split_function_get_node_self (alg : Alg) (obj : HiPartObject) (nid : Int)
    {x : TNode} (hx : obj.tree.get_node nid = some x)
    (hsp : x.data.splitpoint ≠ none) (hcrit : x.data.split_criterion ≠ none) :
    (split_function alg obj nid).tree.get_node nid = some x := by
  obtain ⟨s, hs⟩ : ∃ s, x.data.splitpoint = some s := by
    cases h : x.data.splitpoint with
    | none => exact absurd h hsp
    | some s => exact ⟨s, rfl⟩
  obtain ⟨c, hc⟩ : ∃ c, x.data.split_criterion = some c := by
    cases h : x.data.split_criterion with
    | none => exact absurd h hcrit
    | some c => exact ⟨c, rfl⟩
  have horelse : x.data.splitpoint.orElse (fun _ => alg.params.spOf x.data.samples)
      = some s := by rw [hs]; rfl
  rw [split_function_split alg obj nid x s hx horelse]
  show (Tree.mk (_ ++ _)).get_node nid = some x
  apply get_node_append
  have hco : x.data.split_criterion.orElse (fun _ => alg.params.critOf x.data.samples)
      = x.data.split_criterion := by rw [hc]; rfl
  have hmod : splitUpdated alg x s = x.data := by
    unfold splitUpdated
    rw [hco, ← hs]
  rw [hmod]
  unfold Tree.setData
  rw [map_get_node (idparent_setData _ _), hx]
  have hid : (x.identifier == nid) = true := by
    simp [(get_node_eq_some hx).2]
  simp [hid]

/-- The loop invariant survives a split. -/
theorem split_function_inv (alg : Alg) (obj : HiPartObject) (nid : Int)
    (h : LoopInv obj) : LoopInv (split_function alg obj nid) := by
  obtain ⟨hd, hb⟩ := h
  have hsd : ∀ d, LoopInv { obj with tree := obj.tree.setData nid d } := by
    intro d
    constructor
    · show (obj.tree.setData nid d).nodeIds.Nodup
      unfold Tree.setData
      rw [map_nodeIds (idparent_setData _ _)]
      exact hd
    · intro n hn
      rcases List.mem_map.mp hn with ⟨m, hm, hrule⟩
      have : n.identifier = m.identifier := by
        rw [← hrule]
        exact (idparent_setData nid d m).1
      rw [this]
      exact hb m hm
  cases hg : obj.tree.get_node nid with
  | none => rw [split_function_none alg obj nid hg]; exact ⟨hd, hb⟩
  | some n =>
    cases hsp : n.data.splitpoint.orElse (fun _ => alg.params.spOf n.data.samples) with
    | none => rw [split_function_degenerate alg obj nid n hg hsp]; exact hsd _
    | some sp =>
      rw [split_function_split alg obj nid n sp hg hsp]
      obtain ⟨hd', hb'⟩ := hsd (splitUpdated alg n sp)
      have hdS : (obj.tree.setData nid (splitUpdated alg n sp)).nodeIds.Nodup := hd'
      have hbS : ∀ m ∈ (obj.tree.setData nid (splitUpdated alg n sp)).nodes,
          m.identifier ≤ obj.node_ids := hb'
      constructor
      · show ((Tree.mk _).nodeIds).Nodup
        unfold Tree.nodeIds at hdS ⊢
        rw [List.map_append]
        rw [List.nodup_append]
        refine ⟨hdS, by simp [splitKids], ?_⟩
        intro a ha hbm
        have ha' : a ≤ obj.node_ids := by
          rcases List.mem_map.mp ha with ⟨m, hm, hrule⟩
          rw [← hrule]
          exact hbS m hm
        simp only [splitKids, List.map_cons, List.map_nil, List.mem_cons,
          List.not_mem_nil, or_false] at hbm
        rcases hbm with h1 | h1 <;> omega
      · intro m hm
        simp only [List.mem_append] at hm
        show m.identifier ≤ obj.node_ids + 2
        rcases hm with hm | hm
        · have := hbS m hm
          omega
        · simp only [splitKids, List.mem_cons, List.not_mem_nil, or_false] at hm
          rcases hm with h1 | h1 <;> simp [h1]

/-- A split changes neither `max_clusters_number` nor `cluster_color`. -/
theorem split_function_fields (alg : Alg) (obj : HiPartObject) (nid : Int) :
    (split_function alg obj nid).max_clusters_number = obj.max_clusters_number ∧
    (split_function alg obj nid).cluster_color = obj.cluster_color := by
  cases hg : obj.tree.get_node nid with
  | none => rw [split_function_none alg obj nid hg]; exact ⟨rfl, rfl⟩
  | some n =>
    cases hsp : n.data.splitpoint.orElse (fun _ => alg.params.spOf n.data.samples) with
    | none => rw [split_function_degenerate alg obj nid n hg hsp]; exact ⟨rfl, rfl⟩
    | some sp => rw [split_function_split alg obj nid n sp hg hsp]; exact ⟨rfl, rfl⟩

/-! Branch equations of `partial_loop`. -/

theorem partial_loop_sel_none (alg : Alg) (budget : Nat) (obj : HiPartObject)
    (hs : alg.select_kid obj.tree.leaves = none) :
    partial_loop alg budget obj = (obj, []) := by
  cases budget <;> (unfold partial_loop; rw [hs])

theorem partial_loop_zero (alg : Alg) (obj : HiPartObject) :
    partial_loop alg 0 obj = (obj, []) := by
  unfold partial_loop
  cases hs : alg.select_kid obj.tree.leaves <;> rfl

theorem partial_loop_succ (alg : Alg) (b : Nat) (obj : HiPartObject) (nid : Int)
    (hs : alg.select_kid obj.tree.leaves = some nid) :
    partial_loop alg (b + 1) obj =
      ((partial_loop alg b (split_function alg obj nid)).1,
       nid :: (partial_loop alg b (split_function alg obj nid)).2) := by
  conv_lhs => unfold partial_loop
  rw [hs]

/-- The recompute loop preserves the loop invariant. -/
theorem partial_loop_inv (alg : Alg) :
    ∀ (budget : Nat) (obj : HiPartObject), LoopInv obj →
      LoopInv (partial_loop alg budget obj).1 := by
  intro budget
  induction budget with
  | zero =>
    intro obj h
    rw [partial_loop_zero]
    exact h
  | succ b ih =>
    intro obj h
    cases hs : alg.select_kid obj.tree.leaves with
    | none => rw [partial_loop_sel_none alg _ obj hs]; exact h
    | some nid =>
      rw [partial_loop_succ alg b obj nid hs]
      exact ih _ (split_function_inv alg obj nid h)

/-- The recompute loop does not change the budget field. -/
theorem partial_loop_max (alg : Alg) :
    ∀ (budget : Nat) (obj : HiPartObject),
      (partial_loop alg budget obj).1.max_clusters_number
        = obj.max_clusters_number := by
  intro budget
  induction budget with
  | zero =>
    intro obj
    rw [partial_loop_zero]
  | succ b ih =>
    intro obj
    cases hs : alg.select_kid obj.tree.leaves with
    | none => rw [partial_loop_sel_none alg _ obj hs]
    | some nid =>
      rw [partial_loop_succ alg b obj nid hs]
      show (partial_loop alg b _).1.max_clusters_number = _
      rw [ih]
      exact (split_function_fields alg obj nid).1

/-- Frame over the whole loop: the record of a node with a known
splitpoint and criterion is never changed (the Splitter recomputes
nothing that is already set, and a selected leaf always has a criterion). -/
theorem partial_loop_sp_frame (alg : Alg) (hsel : SelectSpec alg.select_kid) :
    ∀ (budget : Nat) (obj : HiPartObject), LoopInv obj →
      ∀ i x, obj.tree.get_node i = some x → x.data.splitpoint ≠ none →
        (partial_loop alg budget obj).1.tree.get_node i = some x := by
  intro budget
  induction budget with
  | zero =>
    intro obj _ i x hx _
    rw [partial_loop_zero]
    exact hx
  | succ b ih =>
    intro obj hinv i x hx hxsp
    cases hs : alg.select_kid obj.tree.leaves with
    | none => rw [partial_loop_sel_none alg _ obj hs]; exact hx
    | some nid =>
      rw [partial_loop_succ alg b obj nid hs]
      have hnext : (split_function alg obj nid).tree.get_node i = some x := by
        by_cases hni : i = nid
        · subst hni
          obtain ⟨l, hl_mem, hl_id, hl_crit, _⟩ := hsel _ _ hs
          have hl_nodes : l ∈ obj.tree.nodes := (List.mem_filter.mp hl_mem).1
          have hd : (obj.tree.nodes.map TNode.identifier).Nodup := hinv.1
          have hlx : l = x := by
            apply List.inj_on_of_nodup_map hd hl_nodes (get_node_eq_some hx).1
            rw [hl_id, (get_node_eq_some hx).2]
          have hxcrit : x.data.split_criterion ≠ none := by
            rw [← hlx]
            exact hl_crit
          exact split_function_get_node_self alg obj i hx hxsp hxcrit
        · exact split_function_get_node_other alg obj nid i hni hx
      exact ih _ (split_function_inv alg obj nid hinv) i x hnext hxsp

/-- Frame over the whole loop: an internal node keeps its record and its
children (only leaves are split, and fresh nodes hang below the split
leaf). -/
theorem partial_loop_internal_frame (alg : Alg) (hsel : SelectSpec alg.select_kid) :
    ∀ (budget : Nat) (obj : HiPartObject),
      ∀ i x, obj.tree.get_node i = some x → obj.tree.is_leaf i = false →
        (partial_loop alg budget obj).1.tree.get_node i = some x ∧
        (partial_loop alg budget obj).1.tree.children_ids i
          = obj.tree.children_ids i := by
  intro budget
  induction budget with
  | zero =>
    intro obj i x hx _
    rw [partial_loop_zero]
    exact ⟨hx, rfl⟩
  | succ b ih =>
    intro obj i x hx hleaf
    cases hs : alg.select_kid obj.tree.leaves with
    | none => rw [partial_loop_sel_none alg _ obj hs]; exact ⟨hx, rfl⟩
    | some nid =>
      rw [partial_loop_succ alg b obj nid hs]
      have hni : i ≠ nid := by
        intro hcontra
        obtain ⟨l, hl_mem, hl_id, _, _⟩ := hsel _ _ hs
        have hleafl := (List.mem_filter.mp hl_mem).2
        rw [hl_id, ← hcontra] at hleafl
        rw [hleafl] at hleaf
        exact absurd hleaf (by simp)
      have h1 := split_function_get_node_other alg obj nid i hni hx
      have h2 := split_function_children_other alg obj nid i hni
      have h3 : (split_function alg obj nid).tree.is_leaf i = false := by
        unfold Tree.is_leaf at hleaf ⊢
        rw [h2]
        exact hleaf
      obtain ⟨hr1, hr2⟩ := ih _ i x h1 h3
      exact ⟨hr1, by rw [hr2, h2]⟩

/-! Structural preservation lemmas for the well-formedness predicates. -/

theorem map_filter_comp (g : TNode → Int) (p : Int → Bool) :
    ∀ l : List TNode, (l.filter (fun n => p (g n))).map g = (l.map g).filter p := by
  intro l
  induction l with
  | nil => rfl
  | cons a l ih => by_cases h : p (g a) = true <;> simp [h, ih]

theorem rangeMap_filter_lt (mN : Nat) :
    ∀ n : Nat, mN ≤ n →
      ((List.range n).map (fun j : Nat => (j : Int))).filter
          (fun i => decide (i < (mN : Int)))
        = (List.range mN).map (fun j : Nat => (j : Int)) := by
  intro n
  induction n with
  | zero =>
    intro h
    have h0 : mN = 0 := by omega
    subst h0
    rfl
  | succ k ih =>
    intro h
    by_cases hm : mN ≤ k
    · rw [List.range_succ, List.map_append, List.filter_append, ih hm]
      have hlast : (([(k : Nat)].map (fun j : Nat => (j : Int))).filter
          (fun i => decide (i < (mN : Int)))) = [] := by
        simp
        omega
      rw [hlast, List.append_nil]
    · have hk : mN = k + 1 := by omega
      subst hk
      apply List.filter_eq_self.mpr
      intro a ha
      rcases List.mem_map.mp ha with ⟨j, hj, rfl⟩
      rw [List.mem_range] at hj
      simp
      omega

theorem child_parent_of_mem {t : Tree} (hsc : sortedContiguous t = true)
    {n : TNode} (hn : n ∈ t.nodes) {p : Int}
    (hm : n.identifier ∈ t.children_ids p) : n.parent = some p := by
  rcases mem_children_ids.mp hm with ⟨x, hx, hxp, hxi⟩
  rw [← sc_unique hsc hx hn hxi]
  exact hxp

theorem children_empty_of_ge {t : Tree} (hsc : sortedContiguous t = true)
    (hpar : parentsOk t = true) {i : Int}
    (hi : (t.nodes.length : Int) ≤ i + 1) : t.children_ids i = [] := by
  rw [List.eq_nil_iff_forall_not_mem]
  intro j hj
  rcases mem_children_ids.mp hj with ⟨x, hx, hxp, hxi⟩
  have h1 := parent_lt hpar hx hxp
  have h2 := (sc_id_bounds hsc hx).2
  omega

theorem leaf_list_contains {t : Tree} {i : Int} (hi : i ∈ t.nodeIds) :
    ((t.leaves.map TNode.identifier).contains i) = t.is_leaf i := by
  obtain ⟨m, hm, hmi⟩ := mem_nodeIds_iff.mp hi
  by_cases hl : t.is_leaf i = true
  · rw [hl]
    have hmem : i ∈ t.leaves.map TNode.identifier :=
      List.mem_map.mpr ⟨m, List.mem_filter.mpr ⟨hm, by rw [hmi]; exact hl⟩, hmi⟩
    simpa using hmem
  · have hfl : t.is_leaf i = false := by simpa using hl
    rw [hfl]
    have hnmem : ¬ i ∈ t.leaves.map TNode.identifier := by
      intro hmem
      rcases List.mem_map.mp hmem with ⟨y, hy, hyi⟩
      have hyl := (List.mem_filter.mp hy).2
      rw [hyi] at hyl
      rw [hyl] at hfl
      exact absurd hfl (by simp)
    simpa using hnmem

theorem map_sortedContiguous {g : TNode → TNode} (hg : IdParentMap g) (t : Tree) :
    sortedContiguous (Tree.mk (t.nodes.map g)) = sortedContiguous t := by
  unfold sortedContiguous
  rw [map_nodeIds hg]
  show (t.nodeIds == (List.range (t.nodes.map g).length).map _) = _
  rw [List.length_map]

theorem map_parentsOk {g : TNode → TNode} (hg : IdParentMap g) (t : Tree)
    (h : parentsOk t = true) : parentsOk (Tree.mk (t.nodes.map g)) = true := by
  apply List.all_eq_true.mpr
  intro x hx
  rcases List.mem_map.mp hx with ⟨n, hn, rfl⟩
  show (if (g n).identifier == 0 then ((g n).parent == none)
    else match (g n).parent with
      | some p => decide (0 ≤ p ∧ p < (g n).identifier)
      | none => false) = true
  rw [(hg n).1, (hg n).2]
  exact List.all_eq_true.mp h n hn

theorem map_pairsOk {g : TNode → TNode} (hg : IdParentMap g) (t : Tree)
    (h : pairsOk t = true) : pairsOk (Tree.mk (t.nodes.map g)) = true := by
  apply List.all_eq_true.mpr
  intro x hx
  rcases List.mem_map.mp hx with ⟨n, hn, rfl⟩
  show (match (Tree.mk (t.nodes.map g)).children_ids (g n).identifier with
    | [] => true
    | [a, b] => b == a + 1
    | _ => false) = true
  rw [(hg n).1, map_children_ids hg]
  exact List.all_eq_true.mp h n hn

theorem filtered_parentsOk {t : Tree} (h : parentsOk t = true) (f : TNode → Bool) :
    parentsOk (Tree.mk (t.nodes.filter f)) = true := by
  apply List.all_eq_true.mpr
  intro x hx
  exact List.all_eq_true.mp h x (List.mem_of_mem_filter hx)

theorem wfobj_loopInv {obj : HiPartObject} (h : WfObject obj) : LoopInv obj := by
  obtain ⟨hwt, hsync⟩ := h
  obtain ⟨hsc, hpar, hpair⟩ := wf_parts hwt
  refine ⟨sc_nodup hsc, ?_⟩
  intro n hn
  have := (sc_id_bounds hsc hn).2
  omega

/-- The keep predicate of the pruning scan is a strict-upper-bound test on
a well-formed tree: there is a cut `m` — the edited id plus one, or plus
two when the edited node is the first of its sibling pair — such that a
node survives exactly when its identifier is below `m`. -/
theorem keep_char {t : Tree} {e : Int} {en : TNode}
    (hwf : wfTree t = true) (hget : t.get_node e = some en) :
    ∃ m : Int,
      e < m ∧ m ≤ (t.nodes.length : Int) ∧
      ((m = e + 1 ∧ (en.parent = none ∨
          ∃ p, en.parent = some p ∧ t.children_ids p = [e - 1, e])) ∨
        (m = e + 2 ∧ ∃ p, en.parent = some p ∧ t.children_ids p = [e, e + 1])) ∧
      (∀ n ∈ t.nodes, (keepNode e en.parent n = true ↔ n.identifier < m)) := by
  obtain ⟨hsc, hpar, hpair⟩ := wf_parts hwf
  obtain ⟨hen_mem, hen_id⟩ := get_node_eq_some hget
  have hbound := sc_id_bounds hsc hen_mem
  rw [hen_id] at hbound
  cases hp : en.parent with
  | none =>
    refine ⟨e + 1, by omega, by omega, Or.inl ⟨rfl, Or.inl rfl⟩, ?_⟩
    intro n hn
    rw [keepNode_true_iff]
    constructor
    · rintro (h | ⟨hne, _⟩)
      · omega
      · exact absurd rfl hne
    · intro h
      exact Or.inl (by omega)
  | some p =>
    have hmemchild : e ∈ t.children_ids p :=
      mem_children_ids.mpr ⟨en, hen_mem, hp, hen_id⟩
    have hplt : 0 ≤ p ∧ p < e := by
      have h2 := parent_lt hpar hen_mem hp
      rw [hen_id] at h2
      exact h2
    obtain ⟨pn, hpn_gn, hpn_mem, hpn_id⟩ := sc_get_node_isSome hsc hplt.1 (by omega)
    have hpk := pairsOk_cases hpair hpn_mem
    rw [hpn_id] at hpk
    rcases hpk with hnil | ⟨a, hpairp⟩
    · rw [hnil] at hmemchild
      exact absurd hmemchild (by simp)
    rw [hpairp] at hmemchild
    simp only [List.mem_cons, List.not_mem_nil, or_false] at hmemchild
    have hpar_iff : ∀ n ∈ t.nodes,
        (n.parent = some p ↔ (n.identifier = a ∨ n.identifier = a + 1)) := by
      intro n hn
      constructor
      · intro hnp
        have hmm : n.identifier ∈ t.children_ids p :=
          mem_children_ids.mpr ⟨n, hn, hnp, rfl⟩
        rw [hpairp] at hmm
        simpa using hmm
      · intro hid
        apply child_parent_of_mem hsc hn
        rw [hpairp]
        simpa using hid
    rcases hmemchild with hea | hea1
    · have ha : a = e := hea.symm
      subst ha
      have he1 : a + 1 ∈ t.children_ids p := by
        rw [hpairp]
        simp
      obtain ⟨x1, hx1_mem, hx1p, hx1i⟩ := mem_children_ids.mp he1
      have hb1 := sc_id_bounds hsc hx1_mem
      rw [hx1i] at hb1
      refine ⟨a + 2, by omega, by omega, Or.inr ⟨rfl, p, rfl, hpairp⟩, ?_⟩
      intro n hn
      rw [keepNode_true_iff]
      constructor
      · rintro (h | ⟨_, hnp⟩)
        · omega
        · have := (hpar_iff n hn).mp hnp
          omega
      · intro h
        by_cases hle : n.identifier ≤ a
        · exact Or.inl hle
        · have : n.identifier = a + 1 := by omega
          exact Or.inr ⟨by simp, (hpar_iff n hn).mpr (Or.inr this)⟩
    · have ha : a = e - 1 := by omega
      subst ha
      have hnorm : (e : Int) - 1 + 1 = e := by omega
      rw [hnorm] at hpairp
      simp only [hnorm] at hpar_iff
      refine ⟨e + 1, by omega, by omega, Or.inl ⟨rfl, Or.inr ⟨p, rfl, hpairp⟩⟩, ?_⟩
      intro n hn
      rw [keepNode_true_iff]
      constructor
      · rintro (h | ⟨_, hnp⟩)
        · omega
        · have := (hpar_iff n hn).mp hnp
          omega
      · intro h
        exact Or.inl (by omega)

theorem filter_filter_and {α : Type} (p q : α → Bool) :
    ∀ l : List α, (l.filter p).filter q = l.filter (fun a => p a && q a) := by
  intro l
  induction l with
  | nil => rfl
  | cons a l ih =>
    by_cases hp : p a = true
    · by_cases hq : q a = true <;> simp [hp, hq, ih]
    · have hp' : p a = false := by simpa using hp
      simp [hp', ih]

/-- Children in the pruned tree are the original children below the cut. -/
theorem pruned_children_ids {t : Tree} {e : Int} {ep : Option Int} {m : Int}
    (hkeep : ∀ n ∈ t.nodes, (keepNode e ep n = true ↔ n.identifier < m)) (i : Int) :
    (prunedTree t e ep).children_ids i
      = (t.children_ids i).filter (fun j => decide (j < m)) := by
  show ((t.nodes.filter (keepNode e ep)).filter
      (fun n => n.parent == some i)).map TNode.identifier
    = (((t.nodes.filter (fun n => n.parent == some i)).map TNode.identifier).filter
      (fun j => decide (j < m)))
  rw [filter_filter_and]
  rw [← map_filter_comp TNode.identifier (fun j => decide (j < m))]
  rw [filter_filter_and]
  congr 1
  apply List.filter_congr
  intro x hx
  by_cases hk : keepNode e ep x = true
  · have hlt : x.identifier < m := (hkeep x hx).mp hk
    simp [hk, hlt]
  · have hk' : keepNode e ep x = false := by simpa using hk
    have hge : ¬ x.identifier < m := fun hc => hk ((hkeep x hx).mpr hc)
    simp [hk', hge]

/-- The pruned tree of a contiguous tree is contiguous, of size `m`. -/
theorem pruned_sc {t : Tree} (hsc : sortedContiguous t = true) {e : Int}
    {ep : Option Int} {m : Int} (hm0 : 0 ≤ m)
    (hmlen : m ≤ (t.nodes.length : Int))
    (hkeep : ∀ n ∈ t.nodes, (keepNode e ep n = true ↔ n.identifier < m)) :
    (prunedTree t e ep).nodeIds
        = (List.range m.toNat).map (fun j : Nat => (j : Int)) ∧
    ((prunedTree t e ep).nodes.length : Int) = m ∧
    sortedContiguous (prunedTree t e ep) = true := by
  have hids : (prunedTree t e ep).nodeIds
      = (List.range m.toNat).map (fun j : Nat => (j : Int)) := by
    show (t.nodes.filter (keepNode e ep)).map TNode.identifier = _
    have h1 : t.nodes.filter (keepNode e ep)
        = t.nodes.filter (fun n => decide (n.identifier < m)) := by
      apply List.filter_congr
      intro x hx
      by_cases hk : keepNode e ep x = true
      · have := (hkeep x hx).mp hk
        simp [hk, this]
      · have hk' : keepNode e ep x = false := by simpa using hk
        have hge : ¬ x.identifier < m := fun hc => hk ((hkeep x hx).mpr hc)
        simp [hk', hge]
    rw [h1, map_filter_comp TNode.identifier (fun j => decide (j < m))]
    show (t.nodeIds).filter _ = _
    rw [sc_nodeIds hsc]
    have h2 := rangeMap_filter_lt m.toNat t.nodes.length (by omega)
    rw [show ((m.toNat : Nat) : Int) = m from by omega] at h2
    exact h2
  have hlen2 : (prunedTree t e ep).nodes.length = m.toNat := by
    have h3 : (prunedTree t e ep).nodes.length = (prunedTree t e ep).nodeIds.length :=
      (List.length_map _ _).symm
    rw [h3, hids]
    simp
  refine ⟨hids, by rw [hlen2]; omega, ?_⟩
  unfold sortedContiguous
  rw [hlen2, hids]
  simp

/-- No sibling pair straddles the cut `m`. -/
theorem no_straddle {t : Tree} (hsc : sortedContiguous t = true) {e m : Int}
    {en : TNode} (hget : t.get_node e = some en)
    (hmdata : (m = e + 1 ∧ (en.parent = none ∨
        ∃ p, en.parent = some p ∧ t.children_ids p = [e - 1, e])) ∨
      (m = e + 2 ∧ ∃ p, en.parent = some p ∧ t.children_ids p = [e, e + 1]))
    {q c : Int} (hpq : t.children_ids q = [c, c + 1])
    (hc : c < m) (hc1 : m ≤ c + 1) : False := by
  obtain ⟨hen_mem, hen_id⟩ := get_node_eq_some hget
  rcases hmdata with ⟨hm, hroot⟩ | ⟨hm, p, hp, hch⟩
  · -- m = e + 1, so c = e: the node with id e is a child of q
    have hce : c = e := by omega
    subst hce
    have hcm : c ∈ t.children_ids q := by
      rw [hpq]
      simp
    obtain ⟨x, hx_mem, hxp, hxi⟩ := mem_children_ids.mp hcm
    have hxe : x = en := sc_unique hsc hx_mem hen_mem (by rw [hxi, hen_id])
    rcases hroot with hnone | ⟨p, hp, hch⟩
    · rw [hxe, hnone] at hxp
      exact absurd hxp (by simp)
    · rw [hxe, hp] at hxp
      have hqp : q = p := by
        injection hxp.symm
      rw [hqp, hch] at hpq
      have := List.head_eq_of_cons_eq hpq
      omega
  · -- m = e + 2, so c = e + 1: the node with id e+1 is a child of q and of p
    have hce : c = e + 1 := by omega
    subst hce
    have h1 : (e + 1) ∈ t.children_ids q := by
      rw [hpq]
      simp
    have h2 : (e + 1) ∈ t.children_ids p := by
      rw [hch]
      simp
    obtain ⟨x, hx_mem, hxp, hxi⟩ := mem_children_ids.mp h1
    obtain ⟨y, hy_mem, hyp, hyi⟩ := mem_children_ids.mp h2
    have hxy : x = y := sc_unique hsc hx_mem hy_mem (by rw [hxi, hyi])
    have hqp : q = p := by
      rw [hxy, hyp] at hxp
      injection hxp.symm
    rw [hqp, hch] at hpq
    have := List.head_eq_of_cons_eq hpq
    omega

/-- Sibling pairs survive pruning whole, so the pruned tree still pairs. -/
theorem pruned_pairsOk {t : Tree} (hsc : sortedContiguous t = true)
    (hpair : pairsOk t = true) {e m : Int} {en : TNode}
    (hget : t.get_node e = some en)
    (hmdata : (m = e + 1 ∧ (en.parent = none ∨
        ∃ p, en.parent = some p ∧ t.children_ids p = [e - 1, e])) ∨
      (m = e + 2 ∧ ∃ p, en.parent = some p ∧ t.children_ids p = [e, e + 1]))
    (hkeep : ∀ n ∈ t.nodes, (keepNode e en.parent n = true ↔ n.identifier < m)) :
    pairsOk (prunedTree t e en.parent) = true := by
  apply List.all_eq_true.mpr
  intro x hx
  have hx_mem : x ∈ t.nodes := List.mem_of_mem_filter hx
  have hch := pruned_children_ids hkeep x.identifier
  show (match (prunedTree t e en.parent).children_ids x.identifier with
    | [] => true
    | [a, b] => b == a + 1
    | _ => false) = true
  rcases pairsOk_cases hpair hx_mem with hnil | ⟨a, hpp⟩
  · rw [hch, hnil]
    rfl
  · rw [hch, hpp]
    by_cases h1 : a + 1 < m
    · have h0 : a < m := by omega
      simp [h0, h1]
    · by_cases h0 : a < m
      · exact (no_straddle hsc hget hmdata hpp h0 (by omega)).elim
      · have h0' : ¬ a + 1 < m := by omega
        simp [h0, h0']

/-- Overwriting one node's data keeps the tree well-formed. -/
theorem setData_wfTree {t : Tree} (h : wfTree t = true) (i : Int) (d : NodeData) :
    wfTree (t.setData i d) = true := by
  obtain ⟨hsc, hpar, hpair⟩ := wf_parts h
  show wfTree (Tree.mk (t.nodes.map _)) = true
  unfold wfTree
  simp only [Bool.and_eq_true]
  exact ⟨⟨by rw [map_sortedContiguous (idparent_setData i d)]; exact hsc,
    map_parentsOk (idparent_setData i d) t hpar⟩,
    map_pairsOk (idparent_setData i d) t hpair⟩

/-- The permission pass keeps the tree well-formed. -/
theorem permission_wfTree {t : Tree} (h : wfTree t = true) :
    wfTree (permission_reset t) = true := by
  obtain ⟨hsc, hpar, hpair⟩ := wf_parts h
  show wfTree (Tree.mk (t.nodes.map _)) = true
  unfold wfTree
  simp only [Bool.and_eq_true]
  exact ⟨⟨by rw [map_sortedContiguous (idparent_permission t)]; exact hsc,
    map_parentsOk (idparent_permission t) t hpar⟩,
    map_pairsOk (idparent_permission t) t hpair⟩

/-- The mid-scan state of a valid edit is a well-formed object again. -/
theorem midState_wfobj {obj : HiPartObject} {e : Int} {en : TNode} (v : ℚ)
    (hwf : wfTree obj.tree = true) (hget : obj.tree.get_node e = some en) :
    WfObject (midState obj e en v) := by
  obtain ⟨hsc, hpar, hpair⟩ := wf_parts hwf
  obtain ⟨m, hem, hmlen, hmdata, hkeep⟩ := keep_char hwf hget
  obtain ⟨hids, hlenP, hscP⟩ := pruned_sc hsc (by
    obtain ⟨hen_mem, hen_id⟩ := get_node_eq_some hget
    have := (sc_id_bounds hsc hen_mem).1
    omega) hmlen hkeep
  have hwfP : wfTree (prunedTree obj.tree e en.parent) = true := by
    unfold wfTree
    simp only [Bool.and_eq_true]
    exact ⟨⟨hscP, filtered_parentsOk hpar _⟩, pruned_pairsOk hsc hpair hget hmdata hkeep⟩
  constructor
  · exact setData_wfTree (permission_wfTree hwfP) e _
  · show ((permission_reset (prunedTree obj.tree e en.parent)).nodes.length : Int) - 1
      = _
    show _ = (((permission_reset (prunedTree obj.tree e en.parent)).setData e
        _).nodes.length : Int) - 1
    unfold Tree.setData
    rw [List.length_map]

/-- Splitting a leaf preserves full object well-formedness: the two fresh
children take the next two identifiers and keep the counter in sync. -/
theorem split_function_wfobj (alg : Alg) (obj : HiPartObject) (nid : Int)
    (hwf : WfObject obj)
    (hleaf : obj.tree.is_leaf nid = true ∨ obj.tree.get_node nid = none) :
    WfObject (split_function alg obj nid) := by
  obtain ⟨hwt, hsync⟩ := hwf
  obtain ⟨hsc, hpar, hpair⟩ := wf_parts hwt
  cases hg : obj.tree.get_node nid with
  | none =>
    rw [split_function_none alg obj nid hg]
    exact ⟨hwt, hsync⟩
  | some n =>
    have hlf : obj.tree.is_leaf nid = true := by
      rcases hleaf with h | h
      · exact h
      · rw [hg] at h
        exact absurd h (by simp)
    have hchnil : obj.tree.children_ids nid = [] := by
      have := hlf
      unfold Tree.is_leaf at this
      exact List.isEmpty_iff.mp this
    cases hsp : n.data.splitpoint.orElse (fun _ => alg.params.spOf n.data.samples) with
    | none =>
      rw [split_function_degenerate alg obj nid n hg hsp]
      refine ⟨setData_wfTree hwt nid _, ?_⟩
      show obj.node_ids = ((obj.tree.setData nid _).nodes.length : Int) - 1
      unfold Tree.setData
      rw [List.length_map]
      exact hsync
    | some sp =>
      rw [split_function_split alg obj nid n sp hg hsp]
      have hnid_bounds : 0 ≤ nid ∧ nid < (obj.tree.nodes.length : Int) := by
        have h1 := sc_id_bounds hsc (get_node_eq_some hg).1
        rw [(get_node_eq_some hg).2] at h1
        exact h1
      have hlen1 : 1 ≤ obj.tree.nodes.length := by
        have := List.length_pos_of_mem (get_node_eq_some hg).1
        omega
      have hsdlen : (obj.tree.setData nid (splitUpdated alg n sp)).nodes.length
          = obj.tree.nodes.length := by
        unfold Tree.setData
        exact List.length_map _ _
      have hklen : (splitKids alg obj nid n sp).length = 2 := by
        simp [splitKids]
      have hTlen : ((obj.tree.setData nid (splitUpdated alg n sp)).nodes
          ++ splitKids alg obj nid n sp).length = obj.tree.nodes.length + 2 := by
        rw [List.length_append, hsdlen, hklen]
      -- the children lists of the extended tree
      have hchT : ∀ i : Int,
          (Tree.mk ((obj.tree.setData nid (splitUpdated alg n sp)).nodes
            ++ splitKids alg obj nid n sp)).children_ids i
          = obj.tree.children_ids i
            ++ (if i = nid then [obj.node_ids + 1, obj.node_ids + 2] else []) := by
        intro i
        rw [children_ids_append]
        have hsd : (obj.tree.setData nid (splitUpdated alg n sp)).children_ids i
            = obj.tree.children_ids i := by
          unfold Tree.setData
          exact map_children_ids (idparent_setData _ _) _ _
        rw [hsd]
        congr 1
        by_cases hi : i = nid
        · subst hi
          simp [splitKids, Tree.children_ids]
        · have hne : (some nid == some i) = false := by
            rw [beq_eq_false_iff_ne]
            intro hcontra
            exact hi (Option.some.inj hcontra).symm
          simp [splitKids, Tree.children_ids, hne, hi]
      constructor
      · unfold wfTree
        simp only [Bool.and_eq_true]
        refine ⟨⟨?_, ?_⟩, ?_⟩
        · -- sortedContiguous
          unfold sortedContiguous
          rw [beq_iff_eq]
          show ((obj.tree.setData nid (splitUpdated alg n sp)).nodes
              ++ splitKids alg obj nid n sp).map TNode.identifier = _
          rw [List.map_append]
          have h1 : (obj.tree.setData nid (splitUpdated alg n sp)).nodes.map
              TNode.identifier = obj.tree.nodeIds := by
            show (Tree.mk _).nodeIds = _
            exact map_nodeIds (idparent_setData _ _) _
          rw [h1, sc_nodeIds hsc]
          have h2 : (splitKids alg obj nid n sp).map TNode.identifier
              = [obj.node_ids + 1, obj.node_ids + 2] := by
            simp [splitKids]
          rw [h2, hTlen]
          have h3 : ∀ k : Nat, (List.range (k + 1)).map (fun j : Nat => (j : Int))
              = (List.range k).map (fun j : Nat => (j : Int)) ++ [(k : Int)] := by
            intro k
            rw [List.range_succ, List.map_append]
            rfl
          rw [h3 (obj.tree.nodes.length + 1), h3 obj.tree.nodes.length]
          rw [List.append_assoc]
          congr 1
          have e1 : obj.node_ids + 1 = (obj.tree.nodes.length : Int) := by omega
          have e2 : obj.node_ids + 2 = ((obj.tree.nodes.length : Nat) + 1 : Int) := by
            push_cast
            omega
          rw [e1, e2]
          rfl
        · -- parentsOk
          apply List.all_eq_true.mpr
          intro x hx
          rcases List.mem_append.mp hx with hx1 | hx2
          · have hp1 : parentsOk (obj.tree.setData nid (splitUpdated alg n sp)) = true := by
              show parentsOk (Tree.mk _) = true
              exact map_parentsOk (idparent_setData _ _) _ hpar
            exact List.all_eq_true.mp hp1 x hx1
          · simp only [splitKids, List.mem_cons, List.not_mem_nil, or_false] at hx2
            rcases hx2 with rfl | rfl
            · show (if ((obj.node_ids + 1 : Int) == 0) then _ else match some nid with
                | some p => decide (0 ≤ p ∧ p < (obj.node_ids + 1 : Int))
                | none => false) = true
              have hz : ((obj.node_ids + 1 : Int) == 0) = false := by
                rw [beq_eq_false_iff_ne]
                omega
              rw [hz]
              show decide (0 ≤ nid ∧ nid < (obj.node_ids + 1 : Int)) = true
              rw [decide_eq_true_eq]
              omega
            · show (if ((obj.node_ids + 2 : Int) == 0) then _ else match some nid with
                | some p => decide (0 ≤ p ∧ p < (obj.node_ids + 2 : Int))
                | none => false) = true
              have hz : ((obj.node_ids + 2 : Int) == 0) = false := by
                rw [beq_eq_false_iff_ne]
                omega
              rw [hz]
              show decide (0 ≤ nid ∧ nid < (obj.node_ids + 2 : Int)) = true
              rw [decide_eq_true_eq]
              omega
        · -- pairsOk
          apply List.all_eq_true.mpr
          intro x hx
          show (match (Tree.mk ((obj.tree.setData nid (splitUpdated alg n sp)).nodes
              ++ splitKids alg obj nid n sp)).children_ids x.identifier with
            | [] => true
            | [a, b] => b == a + 1
            | _ => false) = true
          rw [hchT x.identifier]
          rcases List.mem_append.mp hx with hx1 | hx2
          · -- a pre-existing record
            obtain ⟨y, hy, hxy⟩ := List.mem_map.mp hx1
            have hxid : x.identifier = y.identifier := by
              rw [← hxy]
              exact (idparent_setData nid (splitUpdated alg n sp) y).1
            by_cases hxe : x.identifier = nid
            · rw [if_pos hxe, hxe, hchnil]
              show ((obj.node_ids + 2 : Int) == (obj.node_ids + 1) + 1) = true
              rw [beq_iff_eq]
              omega
            · rw [if_neg hxe, List.append_nil, hxid]
              have := pairsOk_cases hpair hy
              rcases this with hnil | ⟨a, hpp⟩
              · rw [hnil]
              · rw [hpp]
                simp
          · -- a fresh child: no children at all
            have hxbig : (obj.tree.nodes.length : Int) ≤ x.identifier
                ∧ x.identifier ≠ nid := by
              simp only [splitKids, List.mem_cons, List.not_mem_nil, or_false] at hx2
              rcases hx2 with rfl | rfl
              · constructor
                · show (obj.tree.nodes.length : Int) ≤ obj.node_ids + 1
                  omega
                · show (obj.node_ids + 1 : Int) ≠ nid
                  omega
              · constructor
                · show (obj.tree.nodes.length : Int) ≤ obj.node_ids + 2
                  omega
                · show (obj.node_ids + 2 : Int) ≠ nid
                  omega
            rw [if_neg hxbig.2, List.append_nil]
            rw [children_empty_of_ge hsc hpar (by omega)]
      · -- counter sync
        show obj.node_ids + 2 = (((obj.tree.setData nid (splitUpdated alg n sp)).nodes
            ++ splitKids alg obj nid n sp).length : Int) - 1
        rw [hTlen]
        push_cast
        omega

/-- The recompute loop preserves object well-formedness: the selector
only ever picks current leaves. -/
theorem partial_loop_wfobj (alg : Alg) (hsel : SelectSpec alg.select_kid) :
    ∀ (budget : Nat) (obj : HiPartObject), WfObject obj →
      WfObject (partial_loop alg budget obj).1 := by
  intro budget
  induction budget with
  | zero =>
    intro obj h
    rw [partial_loop_zero]
    exact h
  | succ b ih =>
    intro obj h
    cases hs : alg.select_kid obj.tree.leaves with
    | none =>
      rw [partial_loop_sel_none alg _ obj hs]
      exact h
    | some nid =>
      rw [partial_loop_succ alg b obj nid hs]
      apply ih
      apply split_function_wfobj alg obj nid h
      obtain ⟨l, hl_mem, hl_id, _, _⟩ := hsel _ _ hs
      exact Or.inl (by rw [← hl_id]; exact (List.mem_filter.mp hl_mem).2)

/-- Whatever the ranking fold returns satisfies any property all the
candidates satisfy. -/
theorem selectFold_mem {P : TNode → Prop} :
    ∀ (l : List TNode) (acc : Option TNode),
      (∀ c, acc = some c → P c) → (∀ x ∈ l, P x) →
      ∀ b, l.foldl (fun best x =>
          match best with
          | none => some x
          | some bb => if critVal bb < critVal x then some x else some bb) acc = some b →
        P b := by
  intro l
  induction l with
  | nil =>
    intro acc hacc _ b hb
    exact hacc b hb
  | cons a l ih =>
    intro acc hacc hl b hb
    rw [List.foldl_cons] at hb
    refine ih _ ?_ (fun x hx => hl x (List.mem_cons_of_mem _ hx)) b hb
    intro c hc
    cases acc with
    | none =>
      have : a = c := Option.some.inj hc
      rw [← this]
      exact hl a (List.mem_cons_self _ _)
    | some bb =>
      have hc2 : (if critVal bb < critVal a then some a else some bb) = some c := hc
      by_cases hlt : critVal bb < critVal a
      · rw [if_pos hlt] at hc2
        rw [← Option.some.inj hc2]
        exact hl a (List.mem_cons_self _ _)
      · rw [if_neg hlt] at hc2
        rw [← Option.some.inj hc2]
        exact hacc bb rfl

/-- The modelled greatest-criterion selector meets the spec contract. -/
theorem selectSpec_selectMaxCrit : SelectSpec selectMaxCrit := by
  intro ls nid h
  unfold selectMaxCrit at h
  rcases Option.map_eq_some'.mp h with ⟨b, hb, hbid⟩
  have hP := selectFold_mem
    (P := fun x => x ∈ ls ∧ x.data.split_criterion ≠ none ∧
      x.data.split_permition = true)
    (ls.filter (fun x => !(x.data.split_criterion == none) && x.data.split_permition))
    none (by intro c hc; cases hc) ?memOk b hb
  · exact ⟨b, hP.1, hbid, hP.2.1, hP.2.2⟩
  case memOk =>
    intro x hx
    have hmf := List.mem_filter.mp hx
    refine ⟨hmf.1, ?_, ?_⟩
    · have h2 := hmf.2
      simp only [Bool.and_eq_true] at h2
      intro hcontra
      rw [hcontra] at h2
      simp at h2
    · have h2 := hmf.2
      simp only [Bool.and_eq_true] at h2
      exact h2.2

/-! Convenience equations for the two record-rewriting passes. -/

theorem setData_children_ids (t : Tree) (nid : Int) (d : NodeData) (i : Int) :
    (t.setData nid d).children_ids i = t.children_ids i :=
  map_children_ids (idparent_setData _ _) _ _

theorem permission_children_ids (t : Tree) (i : Int) :
    (permission_reset t).children_ids i = t.children_ids i :=
  map_children_ids (idparent_permission _) _ _

/-! The ancestor chain: each ancestor is older, and owns a surviving child. -/

theorem anc_lt {t : Tree} (hpar : parentsOk t = true) {a b : Int}
    (h : t.Anc a b) : 0 ≤ a ∧ a < b := by
  induction h with
  | parent hg hp =>
    rename_i b' n
    have h2 := parent_lt hpar (get_node_eq_some hg).1 hp
    rw [(get_node_eq_some hg).2] at h2
    exact h2
  | step hg hp hanc ih =>
    have h2 := parent_lt hpar (get_node_eq_some hg).1 hp
    rw [(get_node_eq_some hg).2] at h2
    omega

theorem anc_child {t : Tree} (hpar : parentsOk t = true) {a b : Int}
    (h : t.Anc a b) :
    ∃ nc, nc ∈ t.nodes ∧ nc.parent = some a ∧ nc.identifier ≤ b := by
  induction h with
  | parent hg hp =>
    exact ⟨_, (get_node_eq_some hg).1, hp, le_of_eq (get_node_eq_some hg).2⟩
  | step hg hp hanc ih =>
    obtain ⟨nc, h1, h2, h3⟩ := ih
    have h4 := parent_lt hpar (get_node_eq_some hg).1 hp
    rw [(get_node_eq_some hg).2] at h4
    exact ⟨nc, h1, h2, by omega⟩

/-- The edited node's record in the mid-scan state: everything preserved
except the re-opened permission and the overwritten splitpoint. -/
theorem midState_get_e {obj : HiPartObject} {e : Int} {en : TNode} (v : ℚ)
    (hsc : sortedContiguous obj.tree = true)
    (hget : obj.tree.get_node e = some en) :
    (midState obj e en v).tree.get_node e
      = some { en with data :=
        { en.data with
          split_permition :=
            (if (prunedTree obj.tree e en.parent).is_leaf en.identifier
                ∧ en.data.split_criterion ≠ none then true
              else en.data.split_permition)
          splitpoint := some v } } := by
  obtain ⟨hen_mem, hen_id⟩ := get_node_eq_some hget
  have hPget : (prunedTree obj.tree e en.parent).get_node e = some en := by
    have h1 := filtered_get_node (t := obj.tree) (sc_nodup hsc) hen_mem
      (show keepNode e en.parent en = true from
        keepNode_true_iff.mpr (Or.inl (le_of_eq hen_id)))
    rwa [hen_id] at h1
  have hg1 : (permission_reset (prunedTree obj.tree e en.parent)).get_node e
      = some (if (prunedTree obj.tree e en.parent).is_leaf en.identifier ∧
            en.data.split_criterion ≠ none then
          { en with data := { en.data with split_permition := true } }
        else en) := by
    unfold permission_reset
    rw [map_get_node (idparent_permission _) _ _, hPget]
    rfl
  show ((permission_reset (prunedTree obj.tree e en.parent)).setData e _).get_node e = _
  unfold Tree.setData
  rw [map_get_node (idparent_setData _ _), hg1]
  by_cases hcond : (prunedTree obj.tree e en.parent).is_leaf en.identifier = true
      ∧ en.data.split_criterion ≠ none
  · rw [if_pos hcond, if_pos hcond]
    simp [hen_id]
  · rw [if_neg hcond, if_neg hcond]
    simp [hen_id]

set_option maxHeartbeats 1000000 in
/-- C9 amended: on every well-formed clustering object (ids exactly
`0..n-1` in creation order, counter in sync), a valid edit raises nothing
and yields a well-formed object again, so the ids of the resulting tree
are again unique and strictly increasing in creation order.  (Removed
ids ARE reused for later-created nodes — see the counterexample — which
is exactly what the `node_ids` reset enforces.) -/
theorem C9_wf_preserved (alg : Alg) (hsel : SelectSpec alg.select_kid)
    {obj : HiPartObject} {split : Int} (v : ℚ) {e : Int} {en : TNode}
    (hwf : WfObject obj) (hget : obj.tree.get_node e = some en)
    (hpy : pyIndex (internal_nodes_of obj.tree) split = .ok e) :
    (recalculate_after_spchange alg obj split v).2 = none ∧
    WfObject (recalculate_after_spchange alg obj split v).1 ∧
    (recalculate_after_spchange alg obj split v).1.tree.nodeIds
      = (List.range
          (recalculate_after_spchange alg obj split v).1.tree.nodes.length).map
        (fun j : Nat => (j : Int)) := by
  have hmid := recalcMid_char (v := v) hwf.1 hget hpy
  have hrw : recalculate_after_spchange alg obj split v
      = ((partial_predict alg (midState obj e en v)).1, none) := by
    unfold recalculate_after_spchange
    rw [hmid]
  rw [hrw]
  have hwfM : WfObject (midState obj e en v) := midState_wfobj v hwf.1 hget
  have hwfR : WfObject (partial_predict alg (midState obj e en v)).1 :=
    partial_loop_wfobj alg hsel _ _ hwfM
  exact ⟨rfl, hwfR, sc_nodeIds (wf_parts hwfR.1).1⟩

/-- Witness for C9's amended statement on the scenario object. -/
theorem C9_wf_preserved_witness :
    WfObject exObj5 ∧
    (recalculate_after_spchange exAlg exObj5 0 7).2 = none ∧
    WfObject (recalculate_after_spchange exAlg exObj5 0 7).1 := by
  have h := @C9_wf_preserved exAlg selectSpec_selectMaxCrit exObj5 0 7 0
    (exNode 0 none (some 1) true (some 10) [1, 2])
    ⟨by decide, by decide⟩ (by decide) rfl
  exact ⟨⟨by decide, by decide⟩, h.1, h.2.1⟩

set_option maxHeartbeats 1000000 in
/-- C7 amended: for every valid edit on a well-formed object, every
proper ancestor of the edited node keeps its record (id, parent link,
splitpoint, criterion, permission, samples) and its exact child list,
and the edited node is unchanged in every field except its splitpoint
and its `split_permition` flag (which the permission reset may re-open —
see the counterexample). -/
theorem C7_ancestor_frame (alg : Alg) (hsel : SelectSpec alg.select_kid)
    {obj : HiPartObject} {split : Int} (v : ℚ) {e : Int} {en : TNode}
    (hwf : WfObject obj) (hget : obj.tree.get_node e = some en)
    (hpy : pyIndex (internal_nodes_of obj.tree) split = .ok e) :
    (recalculate_after_spchange alg obj split v).2 = none ∧
    (∀ a x, obj.tree.Anc a e → obj.tree.get_node a = some x →
      (recalculate_after_spchange alg obj split v).1.tree.get_node a = some x ∧
      (recalculate_after_spchange alg obj split v).1.tree.children_ids a
        = obj.tree.children_ids a) ∧
    (∃ pb : Bool, (recalculate_after_spchange alg obj split v).1.tree.get_node e
      = some { en with data :=
        { en.data with split_permition := pb, splitpoint := some v } }) := by
  obtain ⟨hwt, hsync⟩ := hwf
  obtain ⟨hsc, hpar, hpair⟩ := wf_parts hwt
  obtain ⟨hen_mem, hen_id⟩ := get_node_eq_some hget
  have hmid := recalcMid_char (v := v) hwt hget hpy
  have hrw : recalculate_after_spchange alg obj split v
      = ((partial_predict alg (midState obj e en v)).1, none) := by
    unfold recalculate_after_spchange
    rw [hmid]
  rw [hrw]
  obtain ⟨m, hem, hmlen, hmdata, hkeep⟩ := keep_char hwt hget
  have hLI : LoopInv (midState obj e en v) :=
    wfobj_loopInv (midState_wfobj v hwt hget)
  refine ⟨rfl, ?_, ?_⟩
  · intro a x hanc hgx
    obtain ⟨hx_mem, hx_id⟩ := get_node_eq_some hgx
    have halt := anc_lt hpar hanc
    obtain ⟨nc, hnc_mem, hnc_p, hnc_le⟩ := anc_child hpar hanc
    have hkx : keepNode e en.parent x = true :=
      (hkeep x hx_mem).mpr (by rw [hx_id]; omega)
    have hPgx : (prunedTree obj.tree e en.parent).get_node a = some x := by
      have h1 := filtered_get_node (sc_nodup hsc) hx_mem hkx
      rwa [hx_id] at h1
    have hxch := pruned_children_ids hkeep a
    have hnc_in : nc.identifier ∈ obj.tree.children_ids a :=
      mem_children_ids.mpr ⟨nc, hnc_mem, hnc_p, rfl⟩
    have hx_pairs := pairsOk_cases hpair hx_mem
    rw [hx_id] at hx_pairs
    rcases hx_pairs with hnil | ⟨c, hcp⟩
    · rw [hnil] at hnc_in
      exact absurd hnc_in (by simp)
    have hc_lt : c < m := by
      rw [hcp] at hnc_in
      simp only [List.mem_cons, List.not_mem_nil, or_false] at hnc_in
      omega
    have hc1_lt : c + 1 < m := by
      by_contra hcontra
      exact no_straddle hsc hget hmdata hcp hc_lt (by omega)
    have hchP : (prunedTree obj.tree e en.parent).children_ids a
        = obj.tree.children_ids a := by
      rw [hxch, hcp]
      simp [hc_lt, hc1_lt]
    have hleafP : (prunedTree obj.tree e en.parent).is_leaf a = false := by
      unfold Tree.is_leaf
      rw [hchP, hcp]
      rfl
    have hg1 : (permission_reset (prunedTree obj.tree e en.parent)).get_node a
        = some x := by
      unfold permission_reset
      rw [map_get_node (idparent_permission _) _ _, hPgx]
      have hnc2 : ¬ ((prunedTree obj.tree e en.parent).is_leaf x.identifier
          ∧ x.data.split_criterion ≠ none) := by
        intro hcond
        have h5 := hcond.1
        rw [hx_id, hleafP] at h5
        exact absurd h5 (by simp)
      have hfx : (if (prunedTree obj.tree e en.parent).is_leaf x.identifier
            ∧ x.data.split_criterion ≠ none then
          { x with data := { x.data with split_permition := true } }
        else x) = x := if_neg hnc2
      exact congrArg some hfx
    have hg2 : (midState obj e en v).tree.get_node a = some x := by
      show ((permission_reset (prunedTree obj.tree e en.parent)).setData e _).get_node a
        = some x
      exact setData_get_node_other (by omega) hg1 _
    have hch2 : (midState obj e en v).tree.children_ids a
        = obj.tree.children_ids a := by
      show ((permission_reset (prunedTree obj.tree e en.parent)).setData e
        _).children_ids a = _
      rw [setData_children_ids, permission_children_ids, hchP]
    have hleafM : (midState obj e en v).tree.is_leaf a = false := by
      unfold Tree.is_leaf
      rw [hch2, hcp]
      rfl
    have hfinal := partial_loop_internal_frame alg hsel
      ((midState obj e en v).max_clusters_number
        - (midState obj e en v).tree.leaves.length)
      (midState obj e en v) a x hg2 hleafM
    refine ⟨hfinal.1, ?_⟩
    show (partial_loop alg ((midState obj e en v).max_clusters_number
        - (midState obj e en v).tree.leaves.length)
      (midState obj e en v)).1.tree.children_ids a = obj.tree.children_ids a
    rw [hfinal.2, hch2]
  · refine ⟨(if (prunedTree obj.tree e en.parent).is_leaf en.identifier
        ∧ en.data.split_criterion ≠ none then true
      else en.data.split_permition), ?_⟩
    have hgM := midState_get_e v hsc hget
    have hspM : ({ en with data :=
        { en.data with
          split_permition :=
            (if (prunedTree obj.tree e en.parent).is_leaf en.identifier
                ∧ en.data.split_criterion ≠ none then true
              else en.data.split_permition)
          splitpoint := some v } } : TNode).data.splitpoint ≠ none := by
      simp
    exact partial_loop_sp_frame alg hsel _ (midState obj e en v) hLI e _ hgM hspM

/-- Witness for C7's amended statement: editing split 1 (node 1) of the
two-level tree preserves the root's record and children, and rewrites
only splitpoint and permission on node 1. -/
theorem C7_ancestor_frame_witness :
    (recalculate_after_spchange exAlg8 exObj8 1 7).2 = none ∧
    (recalculate_after_spchange exAlg8 exObj8 1 7).1.tree.get_node 0
      = some (exNode 0 none (some 1) true (some 10) [1, 2, 3, 4, 5, 6]) ∧
    (recalculate_after_spchange exAlg8 exObj8 1 7).1.tree.children_ids 0
      = exObj8.tree.children_ids 0 ∧
    (∃ pb : Bool, (recalculate_after_spchange exAlg8 exObj8 1 7).1.tree.get_node 1
      = some { exNode 1 (some 0) (some 5) true (some 20) [1, 2, 3, 4] with data :=
        { (exNode 1 (some 0) (some 5) true (some 20) [1, 2, 3, 4]).data with
          split_permition := pb
          splitpoint := some 7 } }) := by
  have h := @C7_ancestor_frame exAlg8 selectSpec_selectMaxCrit exObj8 1 7 1
    (exNode 1 (some 0) (some 5) true (some 20) [1, 2, 3, 4])
    ⟨by decide, by decide⟩ (by decide) rfl
  have hanc : exObj8.tree.Anc 0 1 :=
    Tree.Anc.parent (n := exNode 1 (some 0) (some 5) true (some 20) [1, 2, 3, 4])
      (by decide) rfl
  obtain ⟨h1, h2, h3⟩ := h
  obtain ⟨hga, hca⟩ := h2 0 (exNode 0 none (some 1) true (some 10) [1, 2, 3, 4, 5, 6])
    hanc (by decide)
  exact ⟨h1, hga, hca, h3⟩

/-! The root edit: index 0 always selects the root, and pruning keeps
only the root. -/

theorem pyIndex_cons_zero (a : Int) (l : List Int) : pyIndex (a :: l) 0 = .ok a := by
  have hlen : (0 : Int) < ((a :: l).length : Int) := by
    simp
  unfold pyIndex
  dsimp only
  rw [if_neg (by omega : ¬ (0 : Int) < 0)]
  rw [if_pos ⟨le_refl 0, hlen⟩]
  rfl

theorem internal_head_zero {t : Tree} (hwf : wfTree t = true) :
    pyIndex (internal_nodes_of t) 0 = .ok 0 := by
  obtain ⟨hsc, hpar, hpair⟩ := wf_parts hwf
  by_cases hlen : 2 ≤ t.nodes.length
  · obtain ⟨n1, hg1, hm1, hi1⟩ := sc_get_node_isSome hsc (i := 1) (by omega) (by
      have : (1 : Int) < (t.nodes.length : Int) := by omega
      exact this)
    obtain ⟨p, hpp, hp0, hplt⟩ := parentsOk_nonroot hpar hm1 (by rw [hi1]; omega)
    have hpz : p = 0 := by
      rw [hi1] at hplt
      omega
    subst hpz
    have hch : (1 : Int) ∈ t.children_ids 0 :=
      mem_children_ids.mpr ⟨n1, hm1, hpp, hi1⟩
    have hleaf0 : t.is_leaf 0 = false := by
      unfold Tree.is_leaf
      cases hcc : t.children_ids 0 with
      | nil =>
        rw [hcc] at hch
        exact absurd hch (by simp)
      | cons h l => rfl
    have h0mem : (0 : Int) ∈ t.nodeIds :=
      (sc_mem_nodeIds hsc).mpr ⟨le_refl 0, by omega⟩
    have hcont : ((t.leaves.map TNode.identifier).contains 0) = false := by
      rw [leaf_list_contains h0mem]
      exact hleaf0
    obtain ⟨k, hk⟩ : ∃ k, t.nodes.length = k + 1 := ⟨t.nodes.length - 1, by omega⟩
    have hstep : ∀ (rest : List Int),
        List.filter (fun i => !((t.leaves.map TNode.identifier).contains i))
          ((((0 : Nat) : Int)) :: rest)
        = (((0 : Nat) : Int))
          :: List.filter (fun i => !((t.leaves.map TNode.identifier).contains i)) rest := by
      intro rest
      rw [List.filter_cons]
      have hpred : (!((t.leaves.map TNode.identifier).contains (((0 : Nat) : Int)))) = true := by
        rw [show (((0 : Nat)) : Int) = (0 : Int) from rfl, hcont]
        rfl
      rw [hpred]
      rfl
    unfold internal_nodes_of
    dsimp only
    rw [hk, List.range_succ_eq_map, List.map_cons, hstep]
    show pyIndex ((((0 : Nat) : Int)) :: _) 0 = .ok 0
    exact pyIndex_cons_zero _ _
  · have hempty : ((List.range t.nodes.length).map (fun j : Nat => (j : Int))).filter
        (fun i => !((t.leaves.map TNode.identifier).contains i)) = [] := by
      rw [List.eq_nil_iff_forall_not_mem]
      intro x hx
      have hxr := List.mem_filter.mp hx
      rcases List.mem_map.mp hxr.1 with ⟨j, hj, rfl⟩
      rw [List.mem_range] at hj
      have hj0 : j = 0 := by omega
      subst hj0
      have h0mem : (0 : Int) ∈ t.nodeIds :=
        (sc_mem_nodeIds hsc).mpr ⟨le_refl 0, by omega⟩
      have hleaf0 : t.is_leaf 0 = true := by
        unfold Tree.is_leaf
        rw [children_empty_of_ge hsc hpar (by omega)]
        rfl
      have hcont : ((t.leaves.map TNode.identifier).contains (((0 : Nat) : Int))) = true := by
        rw [show (((0 : Nat)) : Int) = (0 : Int) from rfl]
        rw [leaf_list_contains h0mem]
        exact hleaf0
      rw [hcont] at hxr
      exact absurd hxr.2 (by simp)
    unfold internal_nodes_of
    dsimp only
    rw [hempty]
    rfl

/-- Editing the root prunes the tree down to the root alone. -/
theorem prune_root_singleton {t : Tree} {en : TNode} (hwf : wfTree t = true)
    (hget : t.get_node 0 = some en) :
    prunedTree t 0 en.parent = Tree.mk [en] := by
  obtain ⟨hsc, hpar, hpair⟩ := wf_parts hwf
  obtain ⟨hen_mem, hen_id⟩ := get_node_eq_some hget
  have hroot : en.parent = none := parentsOk_root hpar hen_mem hen_id
  rw [hroot]
  cases hnodes : t.nodes with
  | nil =>
    unfold Tree.get_node at hget
    rw [hnodes] at hget
    exact absurd hget (by simp)
  | cons y rest =>
    have hids : t.nodes.map TNode.identifier
        = (List.range t.nodes.length).map (fun j : Nat => (j : Int)) := sc_nodeIds hsc
    rw [hnodes] at hids
    rw [List.map_cons] at hids
    rw [show (y :: rest).length = rest.length + 1 from rfl,
      List.range_succ_eq_map, List.map_cons] at hids
    injection hids with hy0 htail
    have hymem : y ∈ t.nodes := by
      rw [hnodes]
      exact List.mem_cons_self _ _
    have hyen : y = en := by
      apply sc_unique hsc hymem hen_mem
      rw [hy0, hen_id]
      rfl
    have hkeep : ∀ z : TNode, keepNode 0 none z = decide (z.identifier ≤ 0) := by
      intro z
      unfold keepNode
      simp
    have hrest : ∀ z ∈ rest, ¬ (z.identifier ≤ 0) := by
      intro z hz
      have hzin : z.identifier ∈ rest.map TNode.identifier :=
        List.mem_map_of_mem _ hz
      rw [htail] at hzin
      rcases List.mem_map.mp hzin with ⟨w, hw, hwz⟩
      rcases List.mem_map.mp hw with ⟨j, _, rfl⟩
      rw [← hwz]
      simp only [Nat.succ_eq_add_one]
      push_cast
      omega
    show Tree.mk (t.nodes.filter (keepNode 0 none)) = Tree.mk [en]
    congr 1
    rw [hnodes, List.filter_cons]
    have hky : keepNode 0 none y = true := by
      rw [hkeep y, hyen, hen_id]
      rfl
    rw [hky]
    have hfrest : rest.filter (keepNode 0 none) = [] := by
      rw [List.eq_nil_iff_forall_not_mem]
      intro z hz
      have hzf := List.mem_filter.mp hz
      have hzk := hzf.2
      rw [hkeep z] at hzk
      exact hrest z hzf.1 (of_decide_eq_true hzk)
    rw [hfrest, hyen]
    rfl

/-- The mid-scan state of a root edit, computed on the singleton prune. -/
theorem midState_root_singleton {obj : HiPartObject} {en : TNode} (v : ℚ)
    (hprune : prunedTree obj.tree 0 en.parent = Tree.mk [en])
    (hroot : en.parent = none) (hid : en.identifier = 0) :
    midState obj 0 en v =
      { obj with
        tree := Tree.mk [rootEdited en v]
        node_ids := 0
        cluster_color := 2 } := by
  unfold midState
  rw [hprune]
  have hchn : (Tree.mk [en]).children_ids en.identifier = [] := by
    unfold Tree.children_ids
    simp [hroot]
  have hleaf : (Tree.mk [en]).is_leaf en.identifier = true := by
    unfold Tree.is_leaf
    rw [hchn]
    rfl
  rw [hid] at hchn hleaf
  simp only [HiPartObject.mk.injEq]
  refine ⟨?_, ?_, ?_, trivial⟩
  · by_cases hcrit : en.data.split_criterion ≠ none
    · simp [permission_reset, Tree.setData, hleaf, hcrit, hid, rootEdited]
    · simp [permission_reset, Tree.setData, hleaf, hcrit, hid, rootEdited]
  · by_cases hcrit : en.data.split_criterion ≠ none
    · simp [permission_reset]
    · simp [permission_reset]
  · by_cases hcrit : en.data.split_criterion ≠ none
    · simp [permission_reset, Tree.leaves, Tree.is_leaf, Tree.children_ids,
        hleaf, hcrit, hid, hroot]
    · have hcrit2 : en.data.split_criterion = none := not_not.mp hcrit
      simp [permission_reset, Tree.leaves, Tree.is_leaf, Tree.children_ids,
        hleaf, hcrit2, hid, hroot]

/-- Re-editing the root's record with the same splitpoint changes nothing. -/
theorem rootEdited_idem (en : TNode) (v : ℚ) :
    rootEdited (rootEdited en v) v = rootEdited en v := by
  by_cases h : en.data.split_criterion ≠ none <;> simp [rootEdited, h]

set_option maxHeartbeats 1000000 in
/-- C8 amended: a root edit (`split_index = 0`, which always selects the
root on a well-formed tree) is idempotent: repeating the call with the
same index and splitpoint returns the identical object and exception,
because the second prune collapses the tree back to the same edited root
and the deterministic recompute replays.  (For non-root edits the claim
fails — see the counterexample — when the budget stops the recompute
before the edited node re-splits.) -/
theorem C8_root_edit_idempotent (alg : Alg) (hsel : SelectSpec alg.select_kid)
    {obj : HiPartObject} {en : TNode} (v : ℚ)
    (hwf : WfObject obj) (hget : obj.tree.get_node 0 = some en) :
    recalculate_after_spchange alg
        (recalculate_after_spchange alg obj 0 v).1 0 v
      = recalculate_after_spchange alg obj 0 v := by
  obtain ⟨hwt, hsync⟩ := hwf
  obtain ⟨hsc, hpar, hpair⟩ := wf_parts hwt
  obtain ⟨hen_mem, hen_id⟩ := get_node_eq_some hget
  have hroot : en.parent = none := parentsOk_root hpar hen_mem hen_id
  have hpy : pyIndex (internal_nodes_of obj.tree) 0 = .ok 0 := internal_head_zero hwt
  have hmid1 : recalcMid obj 0 v = (midState obj 0 en v, none) :=
    recalcMid_char (v := v) hwt hget hpy
  have hprune1 : prunedTree obj.tree 0 en.parent = Tree.mk [en] :=
    prune_root_singleton hwt hget
  have hms1 : midState obj 0 en v
      = { obj with
          tree := Tree.mk [rootEdited en v]
          node_ids := 0
          cluster_color := 2 } :=
    midState_root_singleton v hprune1 hroot hen_id
  have hc1 : recalculate_after_spchange alg obj 0 v
      = ((partial_predict alg (midState obj 0 en v)).1, none) := by
    unfold recalculate_after_spchange
    rw [hmid1]
  have hwfM : WfObject (midState obj 0 en v) := midState_wfobj v hwt hget
  have hLI : LoopInv (midState obj 0 en v) := wfobj_loopInv hwfM
  have hwfr1 : WfObject (partial_predict alg (midState obj 0 en v)).1 :=
    partial_loop_wfobj alg hsel _ _ hwfM
  have hgetM : (midState obj 0 en v).tree.get_node 0 = some (rootEdited en v) := by
    rw [hms1]
    show (Tree.mk [rootEdited en v]).get_node 0 = _
    unfold Tree.get_node
    simp [rootEdited, hen_id]
  have hr1get : (partial_predict alg (midState obj 0 en v)).1.tree.get_node 0
      = some (rootEdited en v) :=
    partial_loop_sp_frame alg hsel _ _ hLI 0 _ hgetM (by simp [rootEdited])
  have hroot2 : (rootEdited en v).parent = none := by
    simp [rootEdited, hroot]
  have hid2 : (rootEdited en v).identifier = 0 := by
    simp [rootEdited, hen_id]
  have hpy2 : pyIndex
      (internal_nodes_of (partial_predict alg (midState obj 0 en v)).1.tree) 0
      = .ok 0 := internal_head_zero hwfr1.1
  have hmid2 : recalcMid (partial_predict alg (midState obj 0 en v)).1 0 v
      = (midState (partial_predict alg (midState obj 0 en v)).1 0
          (rootEdited en v) v, none) :=
    recalcMid_char (v := v) hwfr1.1 hr1get hpy2
  have hprune2 : prunedTree (partial_predict alg (midState obj 0 en v)).1.tree 0
      (rootEdited en v).parent = Tree.mk [rootEdited en v] :=
    prune_root_singleton hwfr1.1 hr1get
  have hms2 : midState (partial_predict alg (midState obj 0 en v)).1 0
      (rootEdited en v) v
      = { (partial_predict alg (midState obj 0 en v)).1 with
          tree := Tree.mk [rootEdited (rootEdited en v) v]
          node_ids := 0
          cluster_color := 2 } :=
    midState_root_singleton v hprune2 hroot2 hid2
  have hmax : (partial_predict alg (midState obj 0 en v)).1.max_clusters_number
      = obj.max_clusters_number := by
    show (partial_loop alg _ _).1.max_clusters_number = _
    rw [partial_loop_max]
    rw [hms1]
  have hkey : midState (partial_predict alg (midState obj 0 en v)).1 0
      (rootEdited en v) v = midState obj 0 en v := by
    rw [hms2, rootEdited_idem]
    rw [hms1] at hmax ⊢
    simp only [HiPartObject.mk.injEq]
    exact ⟨trivial, trivial, trivial, hmax⟩
  have hc2 : recalculate_after_spchange alg
      (partial_predict alg (midState obj 0 en v)).1 0 v
      = ((partial_predict alg (midState obj 0 en v)).1, none) := by
    unfold recalculate_after_spchange
    rw [hmid2, hkey]
  rw [hc1]
  show recalculate_after_spchange alg
      (partial_predict alg (midState obj 0 en v)).1 0 v
    = ((partial_predict alg (midState obj 0 en v)).1, none)
  rw [hc2]

/-- Witness for C8's amended statement: a root edit of the scenario
object repeated with the same splitpoint returns the identical result. -/
theorem C8_root_edit_idempotent_witness :
    recalculate_after_spchange exAlg
        (recalculate_after_spchange exAlg exObj5 0 7).1 0 7
      = recalculate_after_spchange exAlg exObj5 0 7 :=
  @C8_root_edit_idempotent exAlg selectSpec_selectMaxCrit exObj5
    (exNode 0 none (some 1) true (some 10) [1, 2]) 7
    ⟨by decide, by decide⟩ (by decide)

end HiPart
